import Mathlib

/-!
# CRC-32 file check (`src/example/crc.c`)

A shallow embedding of the four functions of `crc.c`:
`calcCRC`, `makeCRCtable`, `eeGetFileCRC` and `fnCompareFileCrc`.

Conventions of the embedding.

* Values of the C type `unsigned long` are natural numbers.  The only operator
  of the source whose result depends on the width of that type is `~`; the
  width `w` (in bits) is a parameter of every function that uses `~`, and the
  source fixes none.  Most properties hold for every width.  Those that give
  the CRC-32 value hold with 32 bits, the width of the spec's data model, and
  are shown to fail with 64 bits.
* Arrays reached through a pointer are lists.  An access outside the list is
  undefined behaviour in C and makes the embedded function return `none`; so
  does the `sprintf` of a path that does not fit the 128-byte path buffer.
* The `dbg` calls only print diagnostics and are left out.
-/

namespace CrcC

/-! ## Data model -/

/-- The macro `CRC_TABLE_SIZE`, 256. -/
def CRC_TABLE_SIZE : Nat := 256

/-- A `uint8_t`. -/
abbrev Byte := Fin 256

/-- Largest value of an `unsigned long` that is `w` bits wide. -/
def ULONG_MAX (w : Nat) : Nat := 2 ^ w - 1

/-- The C operator `~` on an `unsigned long` of `w` bits: each of the `w` bits is flipped. -/
def bnot (w : Nat) (x : Nat) : Nat := x ^^^ ULONG_MAX w

/-! ## `calcCRC` (lines 2-12) -/

/-- The loop `while(size--) { CRC = table[(CRC ^ *(mem++)) & 0xFF] ^ (CRC >> 8); }`.
`mem` holds the bytes that can be read from the pointer onwards.  The loop ends
when `size` is found to be 0; the result is the state at that point: what is
left in front of the advanced pointer `mem`, and `CRC`.  Reading past the end
of `mem` or of `table` gives `none`.  A negative `size` never reaches 0 and so
runs off the buffer. -/
def calcCRC.loop (table : List Nat) : List Byte → Int → Nat → Option (List Byte × Nat)
  | [], size, CRC => if size = 0 then some ([], CRC) else none
  | b :: mem, size, CRC =>
    if size = 0 then some (b :: mem, CRC)
    else
      match table[(CRC ^^^ b.val) &&& 0xFF]? with
      | none => none
      | some t => calcCRC.loop table mem (size - 1) (t ^^^ (CRC >>> 8))

/-- The function `calcCRC( mem, size, CRC, table )`:
`CRC = ~CRC;` then the loop, then `return ~CRC;`. -/
def calcCRC (w : Nat) (mem : List Byte) (size : Int) (CRC : Nat) (table : List Nat) :
    Option Nat :=
  match calcCRC.loop table mem size (bnot w CRC) with
  | none => none
  | some st => some (bnot w st.2)

/-! ## `makeCRCtable` (lines 14-34) -/

/-- Body of the inner loop: `if (k & 1) k = (k >> 1) ^ id; else k >>= 1;`. -/
def makeCRCtable.bit (id k : Nat) : Nat :=
  if k &&& 1 ≠ 0 then (k >>> 1) ^^^ id else k >>> 1

/-- The inner loop `for( j = 0; j < 8; ++j )`, started with `k`. -/
def makeCRCtable.inner (id k : Nat) : Nat :=
  (List.range 8).foldl (fun k _ => makeCRCtable.bit id k) k

/-- Body of the outer loop for the index `i`: `k = i;`, the inner loop, `table[i] = k;`.
A store outside the array gives `none`. -/
def makeCRCtable.body (id : Nat) (table : List Nat) (i : Nat) : Option (List Nat) :=
  if i < table.length then some (table.set i (makeCRCtable.inner id i)) else none

/-- The function `makeCRCtable( table, id )`: the outer loop
`for( i = 0; i < CRC_TABLE_SIZE; ++i )` over the array found at `table`;
the result is the array afterwards. -/
def makeCRCtable (table : List Nat) (id : Nat) : Option (List Nat) :=
  (List.range CRC_TABLE_SIZE).foldlM (makeCRCtable.body id) table

/-! ## `eeGetFileCRC` (lines 36-64) -/

/-- The capacity of the read buffer, `sizeof(buf)` for `uint8_t buf [32768]`. -/
def BUF_SIZE : Nat := 32768

/-- The polynomial that `eeGetFileCRC` passes to `makeCRCtable`. -/
def POLY : Nat := 0xEDB88320

/-- An open stdio stream, described by what it will deliver: `pending` lists, in
order, the bytes that each coming `fread` call obtains from the file (as the
platform hands them over for the mode `"r"`).  A call that finds no entry, or
an entry without bytes, returns 0 (end of file, or a read error, which the
source does not tell apart). -/
structure FILE where
  pending : List (List Byte)
  deriving DecidableEq

/-- The automatic arrays of `eeGetFileCRC`, `uint8_t buf [32768]` and
`unsigned long table[CRC_TABLE_SIZE]`, with the (unspecified) contents they
have on entry. -/
structure Locals where
  buf : List Byte
  table : List Nat
  buf_size : buf.length = BUF_SIZE
  table_size : table.length = CRC_TABLE_SIZE

/-- The effect of `fread(buf, 1, n, s)` on the buffer when the stream delivers
`chunk`: at most `n` bytes are stored at the start of `buf`, the rest of `buf`
keeps its contents; the second component is the returned count, never more
than `n`. -/
def fread (buf : List Byte) (n : Nat) (chunk : List Byte) : List Byte × Nat :=
  ((chunk.take n) ++ buf.drop (chunk.take n).length, (chunk.take n).length)

/-- The loop
`while ( (len = fread(buf, 1, sizeof(buf), s)) != 0 ) CRC = calcCRC( buf, (unsigned long) len, CRC, table );`
over the reads the stream still delivers. -/
def eeGetFileCRC.loop (w : Nat) (table : List Nat) : List (List Byte) → List Byte → Nat → Option Nat
  | [], _, CRC => some CRC
  | chunk :: pending, buf, CRC =>
    if (fread buf BUF_SIZE chunk).2 ≠ 0 then
      match calcCRC w (fread buf BUF_SIZE chunk).1 ((fread buf BUF_SIZE chunk).2 : Int) CRC table with
      | none => none
      | some CRC => eeGetFileCRC.loop w table pending (fread buf BUF_SIZE chunk).1 CRC
    else some CRC

/-- The function `eeGetFileCRC( fileName )`.  `fopen` is the file system seen
through `fopen( fileName, "r" )`: `none` is the `NULL` result.  On `NULL` the
function returns `false`, that is 0; otherwise it builds the table for
`0xEDB88320`, starts from `CRC = 0` and runs the read loop. -/
def eeGetFileCRC (w : Nat) (fr : Locals) (fopen : String → Option FILE) (fileName : String) :
    Option Nat :=
  match fopen fileName with
  | none => some 0
  | some s =>
    match makeCRCtable fr.table POLY with
    | none => none
    | some table => eeGetFileCRC.loop w table s.pending fr.buf 0

/-! ## `fnCompareFileCrc` (lines 66-132) -/

/-- The fields of the global record `modemFotaDb` that the source reads.  The
declaration of the record is not part of the source file; the three file names
are strings of any length. -/
structure ModemFotaDb where
  dev_code : Nat
  total_crc : Nat
  main_filename : String
  wire_filename : String
  wireless_filename : String

/-- The three device codes the source compares `dev_code` with; the macros
`PACKAGE_T_CP970`, `PACKAGE_T_INF267RS` and `PACKAGE_T_INF260Z` are defined
outside the source file. -/
structure PackageT where
  PACKAGE_T_CP970 : Nat
  PACKAGE_T_INF267RS : Nat
  PACKAGE_T_INF260Z : Nat

/-- The size of the path buffer, `char crc_tmp[128]`. -/
def CRC_TMP_SIZE : Nat := 128

/-- The characters that the format `"/root/%s.dat"` produces for `name`. -/
def crcPathText (name : String) : String := "/root/" ++ name ++ ".dat"

/-- The call `sprintf(&crc_tmp[0], "/root/%s.dat", name)`: it stores the 6 bytes
of `/root/`, the bytes of `name`, the 4 bytes of `.dat` and the terminating
zero byte in `crc_tmp`.  When they fit the result is the path left in
`crc_tmp`; when they do not, the call writes past the end of the array
(undefined behaviour) and the result is `none`. -/
def crcPath (name : String) : Option String :=
  if 6 + name.utf8ByteSize + 4 + 1 ≤ CRC_TMP_SIZE then some (crcPathText name) else none

/-- The function `fnCompareFileCrc()`, reading the global record `db`.  `res`
starts as `true` and is returned as a `uint8_t`: 1 for `true`, 0 for `false`.
The three device branches are kept as they stand in the source. -/
def fnCompareFileCrc (w : Nat) (P : PackageT) (fr : Locals) (fopen : String → Option FILE)
    (db : ModemFotaDb) : Option Nat :=
  if db.dev_code = P.PACKAGE_T_CP970 then
    if db.total_crc ≠ 0 then
      match crcPath db.main_filename with
      | none => none
      | some crc_tmp =>
        match eeGetFileCRC w fr fopen crc_tmp with
        | none => none
        | some file_crc =>
          if file_crc ≠ 0 then
            if file_crc ≠ db.total_crc then some 0 else some 1
          else some 1
    else some 1
  else if db.dev_code = P.PACKAGE_T_INF267RS then
    if db.total_crc ≠ 0 then
      match crcPath db.wire_filename with
      | none => none
      | some crc_tmp =>
        match eeGetFileCRC w fr fopen crc_tmp with
        | none => none
        | some file_crc =>
          if file_crc ≠ 0 then
            if file_crc ≠ db.total_crc then some 0 else some 1
          else some 1
    else some 1
  else if db.dev_code = P.PACKAGE_T_INF260Z then
    if db.total_crc ≠ 0 then
      match crcPath db.wireless_filename with
      | none => none
      | some crc_tmp =>
        match eeGetFileCRC w fr fopen crc_tmp with
        | none => none
        | some file_crc =>
          if file_crc ≠ 0 then
            if file_crc ≠ db.total_crc then some 0 else some 1
          else some 1
    else some 1
  else some 1

/-! ## Reference definitions and test data -/

/-- One step of the recurrence of the block update,
`acc' = table[(acc XOR b) AND 0xFF] XOR (acc >> 8)`; `none` when the table has
no entry at that index. -/
def accStep (table : List Nat) (acc : Nat) (b : Byte) : Option Nat :=
  match table[(acc ^^^ b.val) &&& 0xFF]? with
  | none => none
  | some t => some (t ^^^ (acc >>> 8))

/-- The accumulator after the bytes of `data` have been folded in, in order,
starting from `acc`. -/
def accFold (table : List Nat) (data : List Byte) (acc : Nat) : Option Nat :=
  data.foldlM (accStep table) acc

/-- The single-bit step of the table construction as the spec words it: if the
low bit of `k` is set then `(k >> 1) XOR p`, else `k >> 1`. -/
def bitStep (p k : Nat) : Nat :=
  if k % 2 = 1 then (k / 2) ^^^ p else k / 2

/-- The table the spec describes for the polynomial `p`: entry `i` is `bitStep p`
applied 8 times to `i`, for `i` in 0..255. -/
def specTable (p : Nat) : List Nat :=
  (List.range 256).map (fun i => (bitStep p)^[8] i)

/-- The file name field that `fnCompareFileCrc` uses for the device code of `db`,
if the code is one of the three handled ones (the first match wins). -/
def selectedName (P : PackageT) (db : ModemFotaDb) : Option String :=
  if db.dev_code = P.PACKAGE_T_CP970 then some db.main_filename
  else if db.dev_code = P.PACKAGE_T_INF267RS then some db.wire_filename
  else if db.dev_code = P.PACKAGE_T_INF260Z then some db.wireless_filename
  else none

/-- The bytes of the ASCII text `123456789`. -/
def check9 : List Byte := [0x31, 0x32, 0x33, 0x34, 0x35, 0x36, 0x37, 0x38, 0x39]

/-- A stack frame whose arrays hold zeros on entry. -/
def zeroLocals : Locals :=
  ⟨List.replicate BUF_SIZE 0, List.replicate CRC_TABLE_SIZE 0, by simp, by simp⟩

/-- The recurrence of the block update with the table read as a total map
(0 outside the table): `table[(acc XOR b) AND 0xFF] XOR (acc >> 8)`. -/
def accNext (table : List Nat) (acc : Nat) (b : Byte) : Nat :=
  table.getD ((acc ^^^ b.val) &&& 0xFF) 0 ^^^ (acc >>> 8)

/-- A file system for the examples: `/root/empty.dat` is a file without bytes,
`/root/nine.dat` holds the text `123456789` and is read in one piece,
`/root/split.dat` holds the same text and is read in two pieces of 4 and 5
bytes followed by a read of 0 bytes, no other path can be opened. -/
def testFopen (fileName : String) : Option FILE :=
  if fileName = "/root/empty.dat" then some ⟨[]⟩
  else if fileName = "/root/nine.dat" then some ⟨[check9]⟩
  else if fileName = "/root/split.dat" then
    some ⟨[[0x31, 0x32, 0x33, 0x34], [0x35, 0x36, 0x37, 0x38, 0x39], []]⟩
  else none

/-- Device codes for the examples. -/
def testCodes : PackageT := ⟨1, 2, 3⟩

/-- The standard reflected CRC-32 defined bit by bit: the register starts as
`0xFFFFFFFF`; each byte is XORed into it and the single-bit step for the
polynomial `0xEDB88320` is applied 8 times; the result is the final register
XOR `0xFFFFFFFF`. -/
def crc32Bitwise (data : List Byte) : Nat :=
  (data.foldl (fun k b => (bitStep 0xEDB88320)^[8] (k ^^^ b.val)) 0xFFFFFFFF) ^^^ 0xFFFFFFFF

/-! ## State-passing and instrumented forms

The same loops once more, with what the plain forms leave out made visible:
the table array as part of the state of `calcCRC`, and the arguments of each
`calcCRC` call that `eeGetFileCRC` makes.  The theorems `calcCRC_run_eq` and
`eeGetFileCRC_loop_calls` tie them to the plain forms. -/

/-- The loop of `calcCRC` in state-passing form: the array found at `table` is
part of the state, next to `mem`, `size` and `CRC`, and the result carries it
as it is when the loop ends.  The body of the loop assigns to `CRC` and moves
`mem` and `size`; it has no assignment through `table`. -/
def calcCRC.loopSt : List Byte → Int → Nat → List Nat → Option (Nat × List Nat)
  | [], size, CRC, table => if size = 0 then some (CRC, table) else none
  | b :: mem, size, CRC, table =>
    if size = 0 then some (CRC, table)
    else
      match table[(CRC ^^^ b.val) &&& 0xFF]? with
      | none => none
      | some t => calcCRC.loopSt mem (size - 1) (t ^^^ (CRC >>> 8)) table

/-- The function `calcCRC` in state-passing form: the returned value together
with the array found at `table` after the call. -/
def calcCRC.run (w : Nat) (mem : List Byte) (size : Int) (CRC : Nat) (table : List Nat) :
    Option (Nat × List Nat) :=
  match calcCRC.loopSt mem size (bnot w CRC) table with
  | none => none
  | some st => some (bnot w st.1, st.2)

/-- A sequence of `calcCRC` calls, each given by its buffer, size and input
CRC, made one after the other on the same array; the result is the array
after the last call. -/
def calcCRC.runAll (w : Nat) : List (List Byte × Int × Nat) → List Nat → Option (List Nat)
  | [], table => some table
  | call :: calls, table =>
    match calcCRC.run w call.1 call.2.1 call.2.2 table with
    | none => none
    | some r => calcCRC.runAll w calls r.2

/-- The conversion of an `unsigned long` value to `signed long`, both `w` bits
wide (two's complement). -/
def toSignedLong (w : Nat) (x : Nat) : Int :=
  if x % 2 ^ w < 2 ^ (w - 1) then ((x % 2 ^ w : Nat) : Int)
  else ((x % 2 ^ w : Nat) : Int) - ((2 ^ w : Nat) : Int)

/-- The calls of `calcCRC` that the read loop of `eeGetFileCRC` makes, in
order: for each call the bytes the read obtained from the stream, the buffer
passed as `mem` and the count passed as `size`. -/
def eeGetFileCRC.calls (w : Nat) (table : List Nat) :
    List (List Byte) → List Byte → Nat → List (List Byte × List Byte × Nat)
  | [], _, _ => []
  | chunk :: pending, buf, CRC =>
    if (fread buf BUF_SIZE chunk).2 ≠ 0 then
      (chunk, (fread buf BUF_SIZE chunk).1, (fread buf BUF_SIZE chunk).2) ::
        match calcCRC w (fread buf BUF_SIZE chunk).1 ((fread buf BUF_SIZE chunk).2 : Int) CRC
            table with
        | none => []
        | some CRC => eeGetFileCRC.calls w table pending (fread buf BUF_SIZE chunk).1 CRC
    else []

/-- A device record for the examples: device code 2, stored checksum 7, and the
file names `empty`, `nine` and `none`. -/
def testDb : ModemFotaDb := ⟨2, 7, "empty", "nine", "none"⟩

/-! ## Basic facts about the operators -/

theorem bnot_bnot (w x : Nat) : bnot w (bnot w x) = x := by
  unfold bnot
  rw [Nat.xor_assoc, Nat.xor_self, Nat.xor_zero]

/-- On a value that fits the type, `~x` is `ULONG_MAX - x`. -/
theorem bnot_eq_sub (w x : Nat) (hx : x < 2 ^ w) : bnot w x = ULONG_MAX w - x := by
  unfold bnot ULONG_MAX
  apply Nat.eq_of_testBit_eq
  intro i
  rw [Nat.testBit_xor]
  by_cases hi : i < w
  · have hsub : 2 ^ w - 1 - x = 2 ^ w - (x + 1) := by omega
    rw [hsub, Nat.testBit_two_pow_sub_one, Nat.testBit_two_pow_sub_succ hx]
    simp [hi]
  · have hiw : w ≤ i := Nat.le_of_not_lt hi
    have h1 : x < 2 ^ i := lt_of_lt_of_le hx (Nat.pow_le_pow_right (by decide) hiw)
    have h2 : 2 ^ w - 1 - x < 2 ^ i :=
      lt_of_le_of_lt (Nat.sub_le _ _)
        (lt_of_lt_of_le (Nat.sub_lt (Nat.two_pow_pos w) (by decide))
          (Nat.pow_le_pow_right (by decide) hiw))
    rw [Nat.testBit_two_pow_sub_one, Nat.testBit_lt_two_pow h1, Nat.testBit_lt_two_pow h2]
    simp [hi]

theorem index_lt (acc : Nat) (b : Nat) : (acc ^^^ b) &&& 0xFF < 256 :=
  lt_of_le_of_lt Nat.and_le_right (by decide)


/-! ## The loop of `calcCRC` -/

theorem accFold_nil (table : List Nat) (acc : Nat) : accFold table [] acc = some acc := rfl

theorem accFold_cons (table : List Nat) (b : Byte) (data : List Byte) (acc : Nat) :
    accFold table (b :: data) acc =
      match accStep table acc b with
      | none => none
      | some acc1 => accFold table data acc1 := by
  unfold accFold
  rw [List.foldlM_cons]
  cases accStep table acc b <;> rfl

theorem accFold_append (table : List Nat) (a b : List Byte) (acc : Nat) :
    accFold table (a ++ b) acc =
      match accFold table a acc with
      | none => none
      | some acc1 => accFold table b acc1 := by
  induction a generalizing acc with
  | nil => rfl
  | cons x a ih =>
    rw [List.cons_append, accFold_cons, accFold_cons]
    cases accStep table acc x with
    | none => rfl
    | some acc1 => exact ih acc1

/-- With a table of 256 entries every step of the recurrence finds its entry. -/
theorem accStep_isSome (table : List Nat) (h : table.length = CRC_TABLE_SIZE) (acc : Nat)
    (b : Byte) : ∃ acc1, accStep table acc b = some acc1 := by
  have hlt : (acc ^^^ b.val) &&& 0xFF < table.length := by
    rw [h]; exact index_lt acc b.val
  unfold accStep
  rw [List.getElem?_eq_getElem hlt]
  exact ⟨_, rfl⟩

theorem accFold_isSome (table : List Nat) (h : table.length = CRC_TABLE_SIZE)
    (data : List Byte) (acc : Nat) : ∃ r, accFold table data acc = some r := by
  induction data generalizing acc with
  | nil => exact ⟨acc, rfl⟩
  | cons b data ih =>
    obtain ⟨acc1, h1⟩ := accStep_isSome table h acc b
    rw [accFold_cons, h1]
    exact ih acc1

/-- The loop of `calcCRC`, run with a count `n` that the buffer covers, folds
the first `n` bytes in order and leaves the pointer `n` bytes further. -/
theorem calcCRC_loop_eq (table : List Nat) (mem : List Byte) (n : Nat) (CRC : Nat)
    (hn : n ≤ mem.length) :
    calcCRC.loop table mem (n : Int) CRC =
      match accFold table (mem.take n) CRC with
      | none => none
      | some acc => some (mem.drop n, acc) := by
  induction mem generalizing n CRC with
  | nil =>
    have h0 : n = 0 := Nat.le_zero.mp hn
    subst h0
    rfl
  | cons b mem ih =>
    cases n with
    | zero => rfl
    | succ n =>
      have hn1 : n ≤ mem.length := Nat.le_of_succ_le_succ hn
      have hne : ((n + 1 : Nat) : Int) ≠ 0 := by omega
      have hsub : ((n + 1 : Nat) : Int) - 1 = (n : Int) := by omega
      rw [calcCRC.loop, if_neg hne, List.take_succ_cons, accFold_cons, List.drop_succ_cons]
      unfold accStep
      cases table[(CRC ^^^ b.val) &&& 0xFF]? with
      | none => rfl
      | some t =>
        simp only []
        rw [hsub]
        exact ih n _ hn1

theorem calcCRC_eq (w : Nat) (table : List Nat) (mem : List Byte) (n : Nat) (CRC : Nat)
    (hn : n ≤ mem.length) :
    calcCRC w mem (n : Int) CRC table =
      match accFold table (mem.take n) (bnot w CRC) with
      | none => none
      | some acc => some (bnot w acc) := by
  unfold calcCRC
  rw [calcCRC_loop_eq table mem n _ hn]
  cases accFold table (mem.take n) (bnot w CRC) <;> rfl

theorem calcCRC_whole (w : Nat) (table : List Nat) (mem : List Byte) (CRC : Nat) :
    calcCRC w mem (mem.length : Int) CRC table =
      match accFold table mem (bnot w CRC) with
      | none => none
      | some acc => some (bnot w acc) := by
  rw [calcCRC_eq w table mem mem.length CRC (Nat.le_refl _), List.take_length]


/-! ## The loops of `makeCRCtable` -/

theorem makeCRCtable_bit_eq (id k : Nat) : makeCRCtable.bit id k = bitStep id k := by
  unfold makeCRCtable.bit bitStep
  rw [Nat.and_one_is_mod, Nat.shiftRight_one]
  rcases Nat.mod_two_eq_zero_or_one k with h | h <;> simp [h]

theorem makeCRCtable_inner_eq (id k : Nat) : makeCRCtable.inner id k = (bitStep id)^[8] k := by
  have hf : (fun (k : Nat) (_ : Nat) => makeCRCtable.bit id k) = fun k _ => bitStep id k := by
    funext k _
    exact makeCRCtable_bit_eq id k
  unfold makeCRCtable.inner
  rw [hf]
  rfl

/-- After the first `n` rounds of the outer loop the first `n` entries hold
their final values and the rest of the array is as it was. -/
theorem makeCRCtable_rounds (id : Nat) (n : Nat) (table : List Nat) (hn : n ≤ table.length) :
    (List.range n).foldlM (makeCRCtable.body id) table =
      some ((List.range n).map (makeCRCtable.inner id) ++ table.drop n) := by
  induction n with
  | zero => rfl
  | succ n ih =>
    have hlt : n < table.length := hn
    rw [List.range_succ, List.foldlM_append, ih (Nat.le_of_lt hlt)]
    have hlen : ((List.range n).map (makeCRCtable.inner id)).length = n := by simp
    have hbody : makeCRCtable.body id
        ((List.range n).map (makeCRCtable.inner id) ++ table.drop n) n =
        some ((List.range n ++ [n]).map (makeCRCtable.inner id) ++ table.drop (n + 1)) := by
      unfold makeCRCtable.body
      have hl : n < ((List.range n).map (makeCRCtable.inner id) ++ table.drop n).length := by
        rw [List.length_append, hlen, List.length_drop]; omega
      rw [if_pos hl]
      congr 1
      rw [List.set_append_right _ _ (le_of_eq hlen), hlen, Nat.sub_self,
        List.drop_eq_getElem_cons hlt, List.set_cons_zero, List.map_append, List.append_assoc]
      rfl
    simpa using hbody

theorem makeCRCtable_eq (table : List Nat) (id : Nat) (h : table.length = CRC_TABLE_SIZE) :
    makeCRCtable table id = some (specTable id) := by
  unfold makeCRCtable
  rw [makeCRCtable_rounds id CRC_TABLE_SIZE table (le_of_eq h.symm), ← h, List.drop_length,
    List.append_nil, h]
  unfold specTable
  congr 1
  apply List.map_congr_left
  intro i _
  exact makeCRCtable_inner_eq id i

theorem specTable_length (p : Nat) : (specTable p).length = CRC_TABLE_SIZE := by
  unfold specTable CRC_TABLE_SIZE
  simp


/-! ## Properties of `calcCRC` -/

theorem accFold_eq_foldl (table : List Nat) (h : table.length = CRC_TABLE_SIZE)
    (data : List Byte) (acc : Nat) :
    accFold table data acc = some (data.foldl (accNext table) acc) := by
  induction data generalizing acc with
  | nil => rfl
  | cons b data ih =>
    have hlt : (acc ^^^ b.val) &&& 0xFF < table.length := by
      rw [h]; exact index_lt acc b.val
    have hstep : accStep table acc b = some (accNext table acc b) := by
      unfold accStep accNext
      rw [List.getElem?_eq_getElem hlt, List.getD_eq_getElem _ _ hlt]
    rw [accFold_cons, hstep, List.foldl_cons]
    exact ih _

/-- The value of the standard check input under the table of `0xEDB88320`,
with a 32-bit `unsigned long`. -/
theorem check9_value : calcCRC 32 check9 9 0 (specTable POLY) = some 0xCBF43926 := by
  set_option maxRecDepth 100000 in decide

/-- The same call with a 64-bit `unsigned long`: the upper 32 bits of `~CRC`
are shifted into the low half during the first four bytes, and the result is
not the CRC-32 value. -/
theorem check9_value_64 :
    calcCRC 64 check9 9 0 (specTable POLY) = some 0xFFFFFFFFF22931C4 := by
  set_option maxRecDepth 100000 in decide

/-- C1, amended. Known answer with `unsigned long` 32 bits wide: whatever the
destination array of 256 entries held before, `makeCRCtable` for the polynomial
`0xEDB88320` produces a 256-entry table `T`, and `calcCRC` over the 9 bytes
`123456789` with size 9, input CRC 0 and table `T` returns exactly
`0xCBF43926`. -/
theorem calcCRC_known_answer (table : List Nat) (h : table.length = CRC_TABLE_SIZE) :
    ∃ T, makeCRCtable table 0xEDB88320 = some T ∧ T.length = 256 ∧
      calcCRC 32 check9 9 0 T = some 0xCBF43926 :=
  ⟨specTable 0xEDB88320, makeCRCtable_eq table _ h, specTable_length _, check9_value⟩

theorem calcCRC_known_answer_witness :
    (List.replicate 256 0).length = CRC_TABLE_SIZE ∧
    ∃ T, makeCRCtable (List.replicate 256 0) 0xEDB88320 = some T ∧ T.length = 256 ∧
      calcCRC 32 check9 9 0 T = some 0xCBF43926 :=
  ⟨List.length_replicate 256 0,
    calcCRC_known_answer (List.replicate 256 0) (List.length_replicate 256 0)⟩


theorem calcCRC_isSome (w : Nat) (table : List Nat) (h : table.length = CRC_TABLE_SIZE)
    (mem : List Byte) (CRC : Nat) :
    ∃ r, calcCRC w mem (mem.length : Int) CRC table = some r := by
  obtain ⟨acc, hacc⟩ := accFold_isSome table h mem (bnot w CRC)
  rw [calcCRC_whole, hacc]
  exact ⟨_, rfl⟩

theorem calcCRC_append (w : Nat) (table : List Nat) (c : Nat) (a b : List Byte) :
    calcCRC w (a ++ b) ((a.length : Int) + (b.length : Int)) c table =
      match calcCRC w a (a.length : Int) c table with
      | none => none
      | some c1 => calcCRC w b (b.length : Int) c1 table := by
  have hlen : (a.length : Int) + (b.length : Int) = ((a ++ b).length : Int) := by
    rw [List.length_append]; omega
  rw [hlen, calcCRC_whole, calcCRC_whole, accFold_append]
  cases accFold table a (bnot w c) with
  | none => rfl
  | some acc1 =>
    simp only []
    rw [calcCRC_whole, bnot_bnot]

theorem calcCRC_nil (w : Nat) (table : List Nat) (c : Nat) :
    calcCRC w [] ((([] : List Byte).length : Nat) : Int) c table = some c := by
  rw [calcCRC_whole, accFold_nil]
  simp only []
  rw [bnot_bnot]

theorem calcCRC_chunks (w : Nat) (table : List Nat) (chunks : List (List Byte)) (c : Nat) :
    chunks.foldlM (fun crc chunk => calcCRC w chunk (chunk.length : Int) crc table) c =
      calcCRC w chunks.flatten (chunks.flatten.length : Int) c table := by
  induction chunks generalizing c with
  | nil => exact (calcCRC_nil w table c).symm
  | cons a chunks ih =>
    have hlen : ((a ++ chunks.flatten).length : Int) = (a.length : Int) + (chunks.flatten.length : Int) := by
      rw [List.length_append]; omega
    rw [List.foldlM_cons, List.flatten_cons, hlen, calcCRC_append]
    cases calcCRC w a (a.length : Int) c table with
    | none => rfl
    | some c1 => exact ih c1

/-- C2. Chunking invariance of `calcCRC`: for every table, every input CRC `c`
and all byte sequences `a` and `b`, one call over `a ++ b` with size
`|a| + |b|` gives what the call over `b` gives when it is fed the result of
the call over `a`; for every list of consecutive sub-buffers, folding them
through sequential calls, each output being the next input CRC, equals one
call over the whole buffer; and with a table of 256 entries the call over the
whole buffer does return a value. -/
theorem calcCRC_chunking (w : Nat) (table : List Nat) (c : Nat) (a b : List Byte)
    (chunks : List (List Byte)) :
    (calcCRC w (a ++ b) ((a.length : Int) + (b.length : Int)) c table =
      match calcCRC w a (a.length : Int) c table with
      | none => none
      | some c1 => calcCRC w b (b.length : Int) c1 table) ∧
    (chunks.foldlM (fun crc chunk => calcCRC w chunk (chunk.length : Int) crc table) c =
      calcCRC w chunks.flatten (chunks.flatten.length : Int) c table) ∧
    (table.length = CRC_TABLE_SIZE →
      ∃ r, calcCRC w chunks.flatten (chunks.flatten.length : Int) c table = some r) :=
  ⟨calcCRC_append w table c a b, calcCRC_chunks w table chunks c,
    fun h => calcCRC_isSome w table h chunks.flatten c⟩

/-- C8. A zero-length update is a no-op: for every width, every input CRC `c`,
every table and every buffer, `calcCRC` with size 0 returns `c` unchanged; in
particular from the initial value 0 it returns 0. -/
theorem calcCRC_size_zero (w : Nat) (mem : List Byte) (c : Nat) (table : List Nat) :
    calcCRC w mem 0 c table = some c ∧ calcCRC w mem 0 0 table = some 0x00000000 := by
  have h : ∀ x, calcCRC w mem 0 x table = some x := by
    intro x
    have h0 := calcCRC_eq w table mem 0 x (Nat.zero_le _)
    rw [List.take_zero, accFold_nil] at h0
    simp only [] at h0
    rw [bnot_bnot] at h0
    exact h0
  exact ⟨h c, h 0⟩

/-- C9. Reference definition of the block update: for every size `n` that the
buffer covers, every input CRC `c` and every table of 256 entries, the loop of
`calcCRC` ends with the pointer advanced by exactly `n` bytes (one per
iteration), its accumulator is `acc_n` with `acc_0 = ~c` and
`acc_(i+1) = table[(acc_i XOR byte_i) AND 0xFF] XOR (acc_i >> 8)` over the
first `n` bytes in order, `calcCRC` returns `~acc_n`, and every table index is
below 256. -/
theorem calcCRC_reference (w : Nat) (n : Nat) (mem : List Byte) (c : Nat) (table : List Nat)
    (ht : table.length = CRC_TABLE_SIZE) (hn : n ≤ mem.length) :
    calcCRC.loop table mem (n : Int) (bnot w c) =
        some (mem.drop n, (mem.take n).foldl (accNext table) (bnot w c)) ∧
    calcCRC w mem (n : Int) c table =
        some (bnot w ((mem.take n).foldl (accNext table) (bnot w c))) ∧
    (∀ i, i ≤ n → ∀ b : Byte,
        (((mem.take i).foldl (accNext table) (bnot w c)) ^^^ b.val) &&& 0xFF < CRC_TABLE_SIZE) := by
  refine ⟨?_, ?_, ?_⟩
  · rw [calcCRC_loop_eq table mem n _ hn, accFold_eq_foldl table ht]
  · rw [calcCRC_eq w table mem n _ hn, accFold_eq_foldl table ht]
  · intro i _ b
    exact index_lt _ b.val

theorem calcCRC_reference_witness :
    (specTable POLY).length = CRC_TABLE_SIZE ∧ 2 ≤ check9.length ∧
    calcCRC.loop (specTable POLY) check9 ((2 : Nat) : Int) (bnot 32 0) =
        some (check9.drop 2, (check9.take 2).foldl (accNext (specTable POLY)) (bnot 32 0)) ∧
    calcCRC 32 check9 ((2 : Nat) : Int) 0 (specTable POLY) =
        some (bnot 32 ((check9.take 2).foldl (accNext (specTable POLY)) (bnot 32 0))) ∧
    (∀ i, i ≤ 2 → ∀ b : Byte,
        (((check9.take i).foldl (accNext (specTable POLY)) (bnot 32 0)) ^^^ b.val) &&& 0xFF
          < CRC_TABLE_SIZE) :=
  ⟨specTable_length POLY, by decide,
    calcCRC_reference 32 2 check9 0 (specTable POLY) (specTable_length POLY) (by decide)⟩

/-! ## Properties of `makeCRCtable` -/

/-- C10. Table construction: for every polynomial `p` and every destination
array of 256 entries, `makeCRCtable` returns an array of 256 entries whose
entry `i`, for every `i` in 0..255, is the value obtained from `k = i` by
exactly 8 iterations of: if the low bit of `k` is set then `(k >> 1) XOR p`
else `k >> 1`. -/
theorem makeCRCtable_entries (p : Nat) (table : List Nat) (h : table.length = CRC_TABLE_SIZE) :
    ∃ T, makeCRCtable table p = some T ∧ T.length = CRC_TABLE_SIZE ∧
      ∀ i, i < 256 → T[i]? = some ((bitStep p)^[8] i) := by
  refine ⟨specTable p, makeCRCtable_eq table p h, specTable_length p, ?_⟩
  intro i hi
  unfold specTable
  rw [List.getElem?_map, List.getElem?_range hi]
  rfl

theorem makeCRCtable_entries_witness :
    (List.replicate 256 5).length = CRC_TABLE_SIZE ∧
    ∃ T, makeCRCtable (List.replicate 256 5) 0x04C11DB7 = some T ∧ T.length = CRC_TABLE_SIZE ∧
      ∀ i, i < 256 → T[i]? = some ((bitStep 0x04C11DB7)^[8] i) :=
  ⟨List.length_replicate 256 5,
    makeCRCtable_entries 0x04C11DB7 (List.replicate 256 5) (List.length_replicate 256 5)⟩


/-! ## Properties of `eeGetFileCRC` -/

/-- What `calcCRC` makes of the buffer after an `fread`: only the bytes just
stored count, not what the buffer held before. -/
theorem calcCRC_fread (w : Nat) (table : List Nat) (buf chunk : List Byte) (n : Nat) (CRC : Nat) :
    calcCRC w (fread buf n chunk).1 ((fread buf n chunk).2 : Int) CRC table =
      calcCRC w (chunk.take n) ((chunk.take n).length : Int) CRC table := by
  unfold fread
  simp only []
  rw [calcCRC_eq w table _ (chunk.take n).length CRC (by rw [List.length_append]; omega),
    List.take_left', calcCRC_whole]
  rfl

theorem fread_full (buf chunk : List Byte) (n : Nat) (h : chunk.length ≤ n) :
    (fread buf n chunk).2 = chunk.length ∧ chunk.take n = chunk := by
  unfold fread
  simp only []
  rw [List.take_of_length_le h]
  exact ⟨rfl, rfl⟩

/-- The read loop over deliveries that are non-empty and fit the buffer,
followed by a read of 0 bytes, is the fold of `calcCRC` over the deliveries. -/
theorem eeGetFileCRC_loop_eq (w : Nat) (table : List Nat) (chunks rest : List (List Byte))
    (hchunks : ∀ c ∈ chunks, c ≠ [] ∧ c.length ≤ BUF_SIZE)
    (hend : ∀ c ∈ rest.head?, c = []) (buf : List Byte) (CRC : Nat) :
    eeGetFileCRC.loop w table (chunks ++ rest) buf CRC =
      chunks.foldlM (fun crc chunk => calcCRC w chunk (chunk.length : Int) crc table) CRC := by
  induction chunks generalizing buf CRC with
  | nil =>
    cases rest with
    | nil => rfl
    | cons c more =>
      have hc : c = [] := hend c (by simp)
      subst hc
      rfl
  | cons c chunks ih =>
    have hc := hchunks c (List.mem_cons_self _ _)
    have hfull := fread_full buf c BUF_SIZE hc.2
    have hlen : (fread buf BUF_SIZE c).2 ≠ 0 := by
      rw [hfull.1]
      exact fun h0 => hc.1 (List.length_eq_zero.mp h0)
    rw [List.cons_append, eeGetFileCRC.loop, if_pos hlen, calcCRC_fread, hfull.2,
      List.foldlM_cons]
    cases calcCRC w c (c.length : Int) CRC table with
    | none => rfl
    | some c1 =>
      exact ih (fun x hx => hchunks x (List.mem_cons_of_mem _ hx)) _ c1

theorem eeGetFileCRC_missing (w : Nat) (fr : Locals) (fopen : String → Option FILE)
    (fileName : String) (h : fopen fileName = none) :
    eeGetFileCRC w fr fopen fileName = some 0 := by
  unfold eeGetFileCRC
  rw [h]

theorem eeGetFileCRC_opened (w : Nat) (fr : Locals) (fopen : String → Option FILE)
    (fileName : String) (s : FILE) (chunks rest : List (List Byte))
    (hopen : fopen fileName = some s) (hsplit : s.pending = chunks ++ rest)
    (hchunks : ∀ c ∈ chunks, c ≠ [] ∧ c.length ≤ BUF_SIZE)
    (hend : ∀ c ∈ rest.head?, c = []) :
    eeGetFileCRC w fr fopen fileName =
      calcCRC w chunks.flatten (chunks.flatten.length : Int) 0 (specTable POLY) := by
  unfold eeGetFileCRC
  rw [hopen]
  simp only []
  rw [makeCRCtable_eq fr.table POLY fr.table_size]
  simp only []
  rw [hsplit, eeGetFileCRC_loop_eq w _ chunks rest hchunks hend, calcCRC_chunks]

/-- C3, amended. The file-level checksum equals the one-shot checksum, for
every width of `unsigned long`: for every file that opens, whose successive
reads deliver the non-empty pieces `chunks`, each of at most 32768 bytes, and
then 0 bytes, `eeGetFileCRC` returns `calcCRC(D, |D|, 0, T)` for the content
`D = chunks.flatten` and the table `T` that `makeCRCtable` builds for
`0xEDB88320` in any 256-entry array; with `unsigned long` 32 bits wide, a file
holding exactly `123456789` yields `0xCBF43926`. -/
theorem eeGetFileCRC_eq_calcCRC (w : Nat) (fr : Locals) (fopen : String → Option FILE)
    (fileName : String) (s : FILE) (chunks rest : List (List Byte))
    (hopen : fopen fileName = some s) (hsplit : s.pending = chunks ++ rest)
    (hchunks : ∀ c ∈ chunks, c ≠ [] ∧ c.length ≤ 32768)
    (hend : ∀ c ∈ rest.head?, c = []) :
    ∃ T r, (∀ table : List Nat, table.length = CRC_TABLE_SIZE →
              makeCRCtable table 0xEDB88320 = some T) ∧
      calcCRC w chunks.flatten (chunks.flatten.length : Int) 0 T = some r ∧
      eeGetFileCRC w fr fopen fileName = some r ∧
      (w = 32 → chunks.flatten = check9 → r = 0xCBF43926) := by
  have heq := eeGetFileCRC_opened w fr fopen fileName s chunks rest hopen hsplit hchunks hend
  obtain ⟨r, hr⟩ := calcCRC_isSome w (specTable POLY) (specTable_length POLY) chunks.flatten 0
  refine ⟨specTable POLY, r, fun table ht => makeCRCtable_eq table POLY ht, hr,
    heq.trans hr, ?_⟩
  intro hw hD
  subst hw
  rw [hD] at hr
  have h9 : calcCRC 32 check9 (check9.length : Int) 0 (specTable POLY) = some 0xCBF43926 :=
    check9_value
  rw [h9] at hr
  exact (Option.some.inj hr).symm

theorem eeGetFileCRC_eq_calcCRC_witness :
    testFopen "/root/split.dat" =
        some ⟨[[0x31, 0x32, 0x33, 0x34], [0x35, 0x36, 0x37, 0x38, 0x39], []]⟩ ∧
    ∃ T r, (∀ table : List Nat, table.length = CRC_TABLE_SIZE →
              makeCRCtable table 0xEDB88320 = some T) ∧
      calcCRC 32 ([[0x31, 0x32, 0x33, 0x34], [0x35, 0x36, 0x37, 0x38, 0x39]] : List (List Byte)).flatten
        ((([[0x31, 0x32, 0x33, 0x34], [0x35, 0x36, 0x37, 0x38, 0x39]] :
            List (List Byte)).flatten.length : Nat) : Int) 0 T = some r ∧
      eeGetFileCRC 32 zeroLocals testFopen "/root/split.dat" = some r ∧
      ((32 : Nat) = 32 →
        ([[0x31, 0x32, 0x33, 0x34], [0x35, 0x36, 0x37, 0x38, 0x39]] : List (List Byte)).flatten
          = check9 → r = 0xCBF43926) :=
  ⟨by decide,
    eeGetFileCRC_eq_calcCRC 32 zeroLocals testFopen "/root/split.dat"
      ⟨[[0x31, 0x32, 0x33, 0x34], [0x35, 0x36, 0x37, 0x38, 0x39], []]⟩
      [[0x31, 0x32, 0x33, 0x34], [0x35, 0x36, 0x37, 0x38, 0x39]] [[]]
      (by decide) rfl (by decide) (by decide)⟩


/-- C4, as stated, fails: a path that cannot be opened and a file that opens
and holds no bytes give the same value, 0. -/
theorem open_failure_not_distinct :
    testFopen "/root/none.dat" = none ∧
    testFopen "/root/empty.dat" = some ⟨[]⟩ ∧
    eeGetFileCRC 32 zeroLocals testFopen "/root/none.dat" = some 0 ∧
    eeGetFileCRC 32 zeroLocals testFopen "/root/empty.dat" = some 0 := by
  set_option maxRecDepth 100000 in decide

/-- C4, amended. For a path that cannot be opened `eeGetFileCRC` returns 0
(`false`); that value differs from the value returned for a file that opens
exactly when the value returned for that file is not 0. -/
theorem eeGetFileCRC_open_failure (w : Nat) (fr : Locals) (fopen : String → Option FILE)
    (missing present : String) (s : FILE) (r : Nat)
    (hmiss : fopen missing = none) (_hopen : fopen present = some s)
    (hr : eeGetFileCRC w fr fopen present = some r) :
    eeGetFileCRC w fr fopen missing = some 0 ∧
    (eeGetFileCRC w fr fopen missing ≠ eeGetFileCRC w fr fopen present ↔ r ≠ 0) := by
  have h0 := eeGetFileCRC_missing w fr fopen missing hmiss
  refine ⟨h0, ?_⟩
  rw [h0, hr]
  constructor
  · intro hne h
    exact hne (by rw [h])
  · intro hne h
    exact hne (Option.some.inj h).symm

theorem eeGetFileCRC_open_failure_witness :
    testFopen "/root/none.dat" = none ∧
    testFopen "/root/nine.dat" = some ⟨[check9]⟩ ∧
    eeGetFileCRC 32 zeroLocals testFopen "/root/nine.dat" = some 0xCBF43926 ∧
    eeGetFileCRC 32 zeroLocals testFopen "/root/none.dat" = some 0 ∧
    (eeGetFileCRC 32 zeroLocals testFopen "/root/none.dat" ≠
        eeGetFileCRC 32 zeroLocals testFopen "/root/nine.dat" ↔ 0xCBF43926 ≠ 0) :=
  have hr : eeGetFileCRC 32 zeroLocals testFopen "/root/nine.dat" = some 0xCBF43926 := by
    set_option maxRecDepth 100000 in decide
  ⟨by decide, by decide, hr,
    eeGetFileCRC_open_failure 32 zeroLocals testFopen "/root/none.dat" "/root/nine.dat"
      ⟨[check9]⟩ 0xCBF43926 (by decide) (by decide) hr⟩

/-- C7, as stated, fails: for the file that opens and holds no bytes
`eeGetFileCRC` returns 0, not `0xFFFFFFFF`. -/
theorem empty_file_not_all_ones :
    testFopen "/root/empty.dat" = some ⟨[]⟩ ∧
    eeGetFileCRC 32 zeroLocals testFopen "/root/empty.dat" = some 0 ∧
    eeGetFileCRC 32 zeroLocals testFopen "/root/empty.dat" ≠ some 0xFFFFFFFF := by
  set_option maxRecDepth 100000 in decide

/-- C7, amended. For a file that opens and holds zero bytes `eeGetFileCRC`
returns the initial value 0 itself: the first read yields 0 bytes, `calcCRC` is
never called and no complement is applied. -/
theorem eeGetFileCRC_empty (w : Nat) (fr : Locals) (fopen : String → Option FILE)
    (fileName : String) (s : FILE)
    (hopen : fopen fileName = some s) (hempty : s.pending.flatten = []) :
    eeGetFileCRC w fr fopen fileName = some 0 := by
  have hend : ∀ c ∈ s.pending.head?, c = [] := by
    intro c hc
    cases hp : s.pending with
    | nil => rw [hp] at hc; simp at hc
    | cons x more =>
      rw [hp] at hc hempty
      simp only [List.head?_cons, Option.mem_def, Option.some.injEq] at hc
      rw [List.flatten_cons] at hempty
      rw [← hc]
      exact (List.append_eq_nil.mp hempty).1
  have h := eeGetFileCRC_opened w fr fopen fileName s [] s.pending hopen rfl
    (fun c hc => absurd hc (List.not_mem_nil c)) hend
  rw [h]
  exact calcCRC_nil w (specTable POLY) 0

theorem eeGetFileCRC_empty_witness :
    testFopen "/root/empty.dat" = some ⟨[]⟩ ∧
    (⟨[]⟩ : FILE).pending.flatten = [] ∧
    eeGetFileCRC 32 zeroLocals testFopen "/root/empty.dat" = some 0 :=
  ⟨by decide, rfl,
    eeGetFileCRC_empty 32 zeroLocals testFopen "/root/empty.dat" ⟨[]⟩ (by decide) rfl⟩

/-! ## The single-bit step is linear over XOR -/

theorem bitStep_zero (p : Nat) : bitStep p 0 = 0 := by
  unfold bitStep
  simp

theorem bitStep_xor (p a b : Nat) : bitStep p (a ^^^ b) = bitStep p a ^^^ bitStep p b := by
  unfold bitStep
  rw [Nat.xor_div_two]
  by_cases ha : a % 2 = 1 <;> by_cases hb : b % 2 = 1
  · have hab : ¬ ((a ^^^ b) % 2 = 1) := by
      rw [Nat.xor_mod_two_eq_one]; exact fun h => h ⟨fun _ => hb, fun _ => ha⟩
    rw [if_neg hab, if_pos ha, if_pos hb, Nat.xor_assoc, Nat.xor_comm p (b / 2 ^^^ p),
      Nat.xor_assoc, Nat.xor_self, Nat.xor_zero]
  · have hab : (a ^^^ b) % 2 = 1 := by
      rw [Nat.xor_mod_two_eq_one]; exact fun h => hb (h.mp ha)
    rw [if_pos hab, if_pos ha, if_neg hb, Nat.xor_assoc, Nat.xor_comm (b / 2) p,
      ← Nat.xor_assoc]
  · have hab : (a ^^^ b) % 2 = 1 := by
      rw [Nat.xor_mod_two_eq_one]; exact fun h => ha (h.mpr hb)
    rw [if_pos hab, if_neg ha, if_pos hb, Nat.xor_assoc]
  · have hab : ¬ ((a ^^^ b) % 2 = 1) := by
      rw [Nat.xor_mod_two_eq_one]; exact fun h => h ⟨fun h1 => absurd h1 ha, fun h1 => absurd h1 hb⟩
    rw [if_neg hab, if_neg ha, if_neg hb]

theorem bitIter_zero (p n : Nat) : (bitStep p)^[n] 0 = 0 := by
  induction n with
  | zero => rfl
  | succ n ih => rw [Function.iterate_succ_apply, bitStep_zero, ih]

theorem bitIter_xor (p n a b : Nat) :
    (bitStep p)^[n] (a ^^^ b) = (bitStep p)^[n] a ^^^ (bitStep p)^[n] b := by
  induction n generalizing a b with
  | zero => rfl
  | succ n ih =>
    rw [Function.iterate_succ_apply, Function.iterate_succ_apply, Function.iterate_succ_apply,
      bitStep_xor, ih]

theorem bitStep_double (p y : Nat) : bitStep p (2 * y) = y := by
  unfold bitStep
  have h : ¬ (2 * y % 2 = 1) := by omega
  rw [if_neg h]
  omega

theorem bitIter_shift (p n y : Nat) : (bitStep p)^[n] (2 ^ n * y) = y := by
  induction n generalizing y with
  | zero => simp
  | succ n ih =>
    have h : 2 ^ (n + 1) * y = 2 * (2 ^ n * y) := by rw [Nat.pow_succ]; ring
    rw [Function.iterate_succ_apply, h, bitStep_double, ih]

/-- A value is its low byte XOR the rest moved back up. -/
theorem split_low_byte (x : Nat) : x = (x &&& 0xFF) ^^^ (2 ^ 8 * (x >>> 8)) := by
  apply Nat.eq_of_testBit_eq
  intro i
  have hff : (0xFF : Nat) = 2 ^ 8 - 1 := by decide
  rw [Nat.testBit_xor, Nat.testBit_and, hff, Nat.testBit_two_pow_sub_one,
    Nat.testBit_mul_pow_two, Nat.testBit_shiftRight]
  by_cases hi : i < 8
  · have h8 : ¬ (8 ≤ i) := by omega
    simp [hi, h8]
  · have h8 : 8 ≤ i := by omega
    have hsum : 8 + (i - 8) = i := by omega
    simp [hi, h8, hsum]

/-- Eight single-bit steps act on the low byte alone; the upper bits just move
down by 8. -/
theorem bitIter8_split (p x : Nat) :
    (bitStep p)^[8] x = (bitStep p)^[8] (x &&& 0xFF) ^^^ (x >>> 8) := by
  conv_lhs => rw [split_low_byte x]
  rw [bitIter_xor, bitIter_shift]

theorem specTable_getD (p i : Nat) (hi : i < 256) :
    (specTable p).getD i 0 = (bitStep p)^[8] i := by
  unfold specTable
  rw [List.getD_eq_getElem?_getD, List.getElem?_map, List.getElem?_range hi]
  rfl

/-- The table-driven update with the table of `p` is eight single-bit steps on
`acc XOR b`. -/
theorem accNext_specTable (p acc : Nat) (b : Byte) :
    accNext (specTable p) acc b = (bitStep p)^[8] (acc ^^^ b.val) := by
  unfold accNext
  rw [specTable_getD p _ (index_lt acc b.val), bitIter8_split p (acc ^^^ b.val)]
  congr 1
  apply Nat.eq_of_testBit_eq
  intro i
  rw [Nat.testBit_shiftRight, Nat.testBit_shiftRight, Nat.testBit_xor]
  have hle : (2 : Nat) ^ 8 ≤ 2 ^ (8 + i) := Nat.pow_le_pow_right (by decide) (Nat.le_add_right 8 i)
  have hb : b.val.testBit (8 + i) = false :=
    Nat.testBit_lt_two_pow (lt_of_lt_of_le b.isLt hle)
  rw [hb]
  simp

theorem specTable_get (p i : Nat) (hi : i < 256) :
    (specTable p)[i]? = some ((bitStep p)^[8] i) := by
  unfold specTable
  rw [List.getElem?_map, List.getElem?_range hi]
  rfl

/-- C11. Table determinism: for every polynomial `p` and any two initial
contents of the 256-entry destination array, the two runs of `makeCRCtable`
with `p` return the same 256-entry table; the result depends on `p` only. -/
theorem makeCRCtable_deterministic (p : Nat) (t1 t2 : List Nat)
    (h1 : t1.length = CRC_TABLE_SIZE) (h2 : t2.length = CRC_TABLE_SIZE) :
    ∃ T, makeCRCtable t1 p = some T ∧ makeCRCtable t2 p = some T ∧
      T.length = CRC_TABLE_SIZE :=
  ⟨specTable p, makeCRCtable_eq t1 p h1, makeCRCtable_eq t2 p h2, specTable_length p⟩

theorem makeCRCtable_deterministic_witness :
    (List.replicate 256 0).length = CRC_TABLE_SIZE ∧
    (List.range 256).length = CRC_TABLE_SIZE ∧
    ∃ T, makeCRCtable (List.replicate 256 0) 0xEDB88320 = some T ∧
      makeCRCtable (List.range 256) 0xEDB88320 = some T ∧ T.length = CRC_TABLE_SIZE :=
  ⟨List.length_replicate 256 0, List.length_range 256,
    makeCRCtable_deterministic 0xEDB88320 (List.replicate 256 0) (List.range 256)
      (List.length_replicate 256 0) (List.length_range 256)⟩

/-- C18. The table is linear over XOR in its index: for every polynomial `p`
and the table `T` that `makeCRCtable` builds for `p` in a 256-entry array,
`T[0] = 0` and `T[a XOR b] = T[a] XOR T[b]` for all `a`, `b` in 0..255. -/
theorem makeCRCtable_xor_linear (p : Nat) (table : List Nat)
    (h : table.length = CRC_TABLE_SIZE) :
    ∃ T, makeCRCtable table p = some T ∧ T[0]? = some 0 ∧
      ∀ a b, a < 256 → b < 256 →
        ∃ ta tb, T[a]? = some ta ∧ T[b]? = some tb ∧ T[a ^^^ b]? = some (ta ^^^ tb) := by
  refine ⟨specTable p, makeCRCtable_eq table p h, ?_, ?_⟩
  · rw [specTable_get p 0 (by decide), bitIter_zero]
  · intro a b ha hb
    have hab : a ^^^ b < 256 := Nat.xor_lt_two_pow (n := 8) ha hb
    exact ⟨_, _, specTable_get p a ha, specTable_get p b hb,
      by rw [specTable_get p _ hab, bitIter_xor]⟩

theorem makeCRCtable_xor_linear_witness :
    (List.replicate 256 9).length = CRC_TABLE_SIZE ∧
    ∃ T, makeCRCtable (List.replicate 256 9) 0xEDB88320 = some T ∧ T[0]? = some 0 ∧
      ∀ a b, a < 256 → b < 256 →
        ∃ ta tb, T[a]? = some ta ∧ T[b]? = some tb ∧ T[a ^^^ b]? = some (ta ^^^ tb) :=
  ⟨List.length_replicate 256 9,
    makeCRCtable_xor_linear 0xEDB88320 (List.replicate 256 9) (List.length_replicate 256 9)⟩

theorem bnot_32 (x : Nat) : bnot 32 x = x ^^^ 0xFFFFFFFF := rfl

theorem foldl_accNext_specTable (p : Nat) (data : List Byte) (acc : Nat) :
    data.foldl (accNext (specTable p)) acc =
      data.foldl (fun k b => (bitStep p)^[8] (k ^^^ b.val)) acc := by
  induction data generalizing acc with
  | nil => rfl
  | cons b data ih => rw [List.foldl_cons, List.foldl_cons, accNext_specTable, ih]

/-- With the table of `p`, `calcCRC` over a whole buffer is the bit-by-bit fold
between the two complements. -/
theorem calcCRC_specTable (w p : Nat) (data : List Byte) (c : Nat) :
    calcCRC w data (data.length : Int) c (specTable p) =
      some (bnot w (data.foldl (fun k b => (bitStep p)^[8] (k ^^^ b.val)) (bnot w c))) := by
  rw [calcCRC_whole, accFold_eq_foldl _ (specTable_length p), foldl_accNext_specTable]

/-- C13, amended. The table-driven update equals the bit-at-a-time reflected
CRC: for every polynomial `p`, with `T` the table `makeCRCtable` builds for
`p`, every accumulator `acc` and every byte `b`,
`T[(acc XOR b) AND 0xFF] XOR (acc >> 8)` is the single-bit step applied 8
times to `acc XOR b`; and with `unsigned long` 32 bits wide, the table for
`0xEDB88320` and input CRC 0, `calcCRC` returns for every byte sequence the
standard reflected CRC-32 defined bit by bit. -/
theorem calcCRC_refines_bitwise (p : Nat) (table : List Nat)
    (h : table.length = CRC_TABLE_SIZE) (acc : Nat) (b : Byte) (data : List Byte) :
    (∃ T t, makeCRCtable table p = some T ∧ T[(acc ^^^ b.val) &&& 0xFF]? = some t ∧
      t ^^^ (acc >>> 8) = (bitStep p)^[8] (acc ^^^ b.val)) ∧
    (∃ T, makeCRCtable table 0xEDB88320 = some T ∧
      calcCRC 32 data (data.length : Int) 0 T = some (crc32Bitwise data)) := by
  constructor
  · refine ⟨specTable p, _, makeCRCtable_eq table p h,
      specTable_get p _ (index_lt acc b.val), ?_⟩
    have hn := accNext_specTable p acc b
    unfold accNext at hn
    rw [specTable_getD p _ (index_lt acc b.val)] at hn
    exact hn
  · refine ⟨specTable 0xEDB88320, makeCRCtable_eq table _ h, ?_⟩
    rw [calcCRC_specTable]
    rfl

theorem calcCRC_refines_bitwise_witness :
    (List.replicate 256 0).length = CRC_TABLE_SIZE ∧
    (∃ T t, makeCRCtable (List.replicate 256 0) 0x82F63B78 = some T ∧
      T[(0x12345678 ^^^ (0x41 : Byte).val) &&& 0xFF]? = some t ∧
      t ^^^ (0x12345678 >>> 8) = (bitStep 0x82F63B78)^[8] (0x12345678 ^^^ (0x41 : Byte).val)) ∧
    (∃ T, makeCRCtable (List.replicate 256 0) 0xEDB88320 = some T ∧
      calcCRC 32 check9 (check9.length : Int) 0 T = some (crc32Bitwise check9)) :=
  ⟨List.length_replicate 256 0,
    calcCRC_refines_bitwise 0x82F63B78 (List.replicate 256 0) (List.length_replicate 256 0)
      0x12345678 0x41 check9⟩

/-- The bit-by-bit definition gives the standard check value. -/
theorem crc32Bitwise_check9 : crc32Bitwise check9 = 0xCBF43926 := by
  set_option maxRecDepth 100000 in decide

/-! ## A difference between two accumulators never vanishes -/

/-- For a polynomial with bit 31 set, the single-bit step maps a non-zero
32-bit value to a non-zero 32-bit value. -/
theorem bitStep_ne_zero (p d : Nat) (hp : 2 ^ 31 ≤ p) (hp2 : p < 2 ^ 32)
    (hd0 : d ≠ 0) (hd : d < 2 ^ 32) : bitStep p d ≠ 0 ∧ bitStep p d < 2 ^ 32 := by
  have hhalf : d / 2 < 2 ^ 31 := by omega
  have hhalf2 : d / 2 < 2 ^ 32 := by omega
  unfold bitStep
  by_cases hodd : d % 2 = 1
  · rw [if_pos hodd]
    refine ⟨?_, Nat.xor_lt_two_pow hhalf2 hp2⟩
    rw [Nat.xor_ne_zero]
    omega
  · rw [if_neg hodd]
    exact ⟨by omega, hhalf2⟩

theorem bitIter_ne_zero (p n d : Nat) (hp : 2 ^ 31 ≤ p) (hp2 : p < 2 ^ 32)
    (hd0 : d ≠ 0) (hd : d < 2 ^ 32) :
    (bitStep p)^[n] d ≠ 0 ∧ (bitStep p)^[n] d < 2 ^ 32 := by
  induction n generalizing d with
  | zero => exact ⟨hd0, hd⟩
  | succ n ih =>
    rw [Function.iterate_succ_apply]
    have h := bitStep_ne_zero p d hp hp2 hd0 hd
    exact ih _ h.1 h.2

/-- Two accumulators whose XOR is a non-zero 32-bit value stay different
through any run of equal bytes. -/
theorem fold_keeps_difference (p : Nat) (hp : 2 ^ 31 ≤ p) (hp2 : p < 2 ^ 32)
    (data : List Byte) (acc1 acc2 : Nat)
    (h0 : acc1 ^^^ acc2 ≠ 0) (h32 : acc1 ^^^ acc2 < 2 ^ 32) :
    data.foldl (fun k b => (bitStep p)^[8] (k ^^^ b.val)) acc1 ≠
      data.foldl (fun k b => (bitStep p)^[8] (k ^^^ b.val)) acc2 := by
  induction data generalizing acc1 acc2 with
  | nil => exact Nat.xor_ne_zero.mp h0
  | cons b data ih =>
    rw [List.foldl_cons, List.foldl_cons]
    have hx : (bitStep p)^[8] (acc1 ^^^ b.val) ^^^ (bitStep p)^[8] (acc2 ^^^ b.val) =
        (bitStep p)^[8] (acc1 ^^^ acc2) := by
      rw [← bitIter_xor]
      congr 1
      rw [Nat.xor_assoc, Nat.xor_comm acc2 b.val, ← Nat.xor_assoc b.val, Nat.xor_self,
        Nat.zero_xor]
    have h := bitIter_ne_zero p 8 _ hp hp2 h0 h32
    apply ih
    · rw [hx]; exact h.1
    · rw [hx]; exact h.2

theorem xor_xor_cancel (a x y : Nat) : (a ^^^ x) ^^^ (a ^^^ y) = x ^^^ y := by
  rw [Nat.xor_comm a x, Nat.xor_assoc, Nat.xor_cancel_left]

theorem POLY_bounds : 2 ^ 31 ≤ POLY ∧ POLY < 2 ^ 32 := by
  unfold POLY
  constructor <;> norm_num

theorem byte_xor_ne_zero (b1 b2 : Byte) (h : b1 ≠ b2) :
    b1.val ^^^ b2.val ≠ 0 ∧ b1.val ^^^ b2.val < 2 ^ 32 := by
  constructor
  · rw [Nat.xor_ne_zero]
    exact fun hv => h (Fin.ext hv)
  · have h8 : b1.val ^^^ b2.val < 2 ^ 8 := Nat.xor_lt_two_pow b1.isLt b2.isLt
    exact lt_of_lt_of_le h8 (Nat.pow_le_pow_right (by decide) (by decide))

/-- C17. Single-byte corruption is always detected: with the table `T` that
`makeCRCtable` builds for `0xEDB88320`, for every input CRC `c` and every two
byte sequences of the same length that differ in exactly one position
(`pre ++ b1 :: post` and `pre ++ b2 :: post` with `b1`, `b2` different),
`calcCRC` returns a value for each and the two values differ; `T` is injective
on 0..255, and for each fixed byte the per-byte update is injective on 32-bit
accumulators. -/
theorem calcCRC_detects_single_byte (w : Nat) (table : List Nat)
    (h : table.length = CRC_TABLE_SIZE) (c : Nat) (pre post : List Byte) (b1 b2 : Byte)
    (hne : b1 ≠ b2) :
    ∃ T r1 r2, makeCRCtable table 0xEDB88320 = some T ∧
      calcCRC w (pre ++ b1 :: post) ((pre ++ b1 :: post).length : Int) c T = some r1 ∧
      calcCRC w (pre ++ b2 :: post) ((pre ++ b2 :: post).length : Int) c T = some r2 ∧
      r1 ≠ r2 ∧
      (∀ i j, i < 256 → j < 256 → T[i]? = T[j]? → i = j) ∧
      (∀ (b : Byte) (acc1 acc2 : Nat), acc1 < 2 ^ 32 → acc2 < 2 ^ 32 →
        accNext T acc1 b = accNext T acc2 b → acc1 = acc2) := by
  refine ⟨specTable POLY, _, _, makeCRCtable_eq table POLY h,
    calcCRC_specTable w POLY _ c, calcCRC_specTable w POLY _ c, ?_, ?_, ?_⟩
  · intro heq
    have heq2 := congrArg (bnot w) heq
    rw [bnot_bnot, bnot_bnot, List.foldl_append, List.foldl_append, List.foldl_cons,
      List.foldl_cons] at heq2
    revert heq2
    apply fold_keeps_difference POLY POLY_bounds.1 POLY_bounds.2
    · rw [← bitIter_xor, xor_xor_cancel]
      exact (bitIter_ne_zero POLY 8 _ POLY_bounds.1 POLY_bounds.2
        (byte_xor_ne_zero b1 b2 hne).1 (byte_xor_ne_zero b1 b2 hne).2).1
    · rw [← bitIter_xor, xor_xor_cancel]
      exact (bitIter_ne_zero POLY 8 _ POLY_bounds.1 POLY_bounds.2
        (byte_xor_ne_zero b1 b2 hne).1 (byte_xor_ne_zero b1 b2 hne).2).2
  · intro i j hi hj hij
    rw [specTable_get POLY i hi, specTable_get POLY j hj] at hij
    have hij2 := Option.some.inj hij
    by_contra hd
    have hx0 : i ^^^ j ≠ 0 := Nat.xor_ne_zero.mpr hd
    have hx32 : i ^^^ j < 2 ^ 32 :=
      lt_of_lt_of_le (Nat.xor_lt_two_pow (n := 8) hi hj)
        (Nat.pow_le_pow_right (by decide) (by decide))
    have hnz := (bitIter_ne_zero POLY 8 _ POLY_bounds.1 POLY_bounds.2 hx0 hx32).1
    rw [bitIter_xor, hij2, Nat.xor_self] at hnz
    exact hnz rfl
  · intro b acc1 acc2 h1 h2 heq
    rw [accNext_specTable, accNext_specTable] at heq
    by_contra hd
    have hx : (acc1 ^^^ b.val) ^^^ (acc2 ^^^ b.val) = acc1 ^^^ acc2 := by
      rw [Nat.xor_assoc, Nat.xor_comm acc2 b.val, ← Nat.xor_assoc b.val, Nat.xor_self,
        Nat.zero_xor]
    have hx0 : acc1 ^^^ acc2 ≠ 0 := Nat.xor_ne_zero.mpr hd
    have hx32 : acc1 ^^^ acc2 < 2 ^ 32 := Nat.xor_lt_two_pow h1 h2
    have hnz := (bitIter_ne_zero POLY 8 _ POLY_bounds.1 POLY_bounds.2 hx0 hx32).1
    rw [← hx, bitIter_xor, heq, Nat.xor_self] at hnz
    exact hnz rfl

theorem calcCRC_detects_single_byte_witness :
    (List.replicate 256 0).length = CRC_TABLE_SIZE ∧ (0x33 : Byte) ≠ 0x73 ∧
    ∃ T r1 r2, makeCRCtable (List.replicate 256 0) 0xEDB88320 = some T ∧
      calcCRC 32 ([0x31, 0x32] ++ 0x33 :: [0x34])
        ((([0x31, 0x32] : List Byte) ++ 0x33 :: [0x34]).length : Int) 0 T = some r1 ∧
      calcCRC 32 ([0x31, 0x32] ++ 0x73 :: [0x34])
        ((([0x31, 0x32] : List Byte) ++ 0x73 :: [0x34]).length : Int) 0 T = some r2 ∧
      r1 ≠ r2 ∧
      (∀ i j, i < 256 → j < 256 → T[i]? = T[j]? → i = j) ∧
      (∀ (b : Byte) (acc1 acc2 : Nat), acc1 < 2 ^ 32 → acc2 < 2 ^ 32 →
        accNext T acc1 b = accNext T acc2 b → acc1 = acc2) :=
  ⟨List.length_replicate 256 0, by decide,
    calcCRC_detects_single_byte 32 (List.replicate 256 0) (List.length_replicate 256 0) 0
      [0x31, 0x32] [0x34] 0x33 0x73 (by decide)⟩

/-! ## The table is only read -/

theorem calcCRC_loopSt_eq (mem : List Byte) (size : Int) (CRC : Nat) (table : List Nat) :
    calcCRC.loopSt mem size CRC table =
      match calcCRC.loop table mem size CRC with
      | none => none
      | some st => some (st.2, table) := by
  induction mem generalizing size CRC with
  | nil =>
    rw [calcCRC.loopSt, calcCRC.loop]
    by_cases h : size = 0
    · rw [if_pos h, if_pos h]
    · rw [if_neg h, if_neg h]
  | cons b mem ih =>
    rw [calcCRC.loopSt, calcCRC.loop]
    by_cases h : size = 0
    · rw [if_pos h, if_pos h]
    · rw [if_neg h, if_neg h]
      cases table[(CRC ^^^ b.val) &&& 0xFF]? with
      | none => rfl
      | some t => exact ih _ _

theorem calcCRC_run_eq (w : Nat) (mem : List Byte) (size : Int) (CRC : Nat) (table : List Nat) :
    calcCRC.run w mem size CRC table =
      match calcCRC w mem size CRC table with
      | none => none
      | some r => some (r, table) := by
  unfold calcCRC.run calcCRC
  rw [calcCRC_loopSt_eq]
  cases calcCRC.loop table mem size (bnot w CRC) <;> rfl

theorem calcCRC_runAll_table (w : Nat) (calls : List (List Byte × Int × Nat))
    (table table1 : List Nat) (h : calcCRC.runAll w calls table = some table1) :
    table1 = table := by
  induction calls with
  | nil =>
    rw [calcCRC.runAll] at h
    exact (Option.some.inj h).symm
  | cons call calls ih =>
    rw [calcCRC.runAll, calcCRC_run_eq] at h
    cases hc : calcCRC w call.1 call.2.1 call.2.2 table with
    | none => rw [hc] at h; cases h
    | some r => rw [hc] at h; exact ih h

theorem calcCRC_runAll_isSome (w : Nat) (table : List Nat) (ht : table.length = CRC_TABLE_SIZE)
    (calls : List (List Byte × Int × Nat))
    (hcalls : ∀ call ∈ calls, ∃ n : Nat, call.2.1 = (n : Int) ∧ n ≤ call.1.length) :
    calcCRC.runAll w calls table = some table := by
  induction calls with
  | nil => rfl
  | cons call calls ih =>
    obtain ⟨n, hn, hle⟩ := hcalls call (List.mem_cons_self _ _)
    obtain ⟨acc, hacc⟩ := accFold_isSome table ht (call.1.take n) (bnot w call.2.2)
    rw [calcCRC.runAll, calcCRC_run_eq, hn, calcCRC_eq w table call.1 n call.2.2 hle, hacc]
    exact ih (fun x hx => hcalls x (List.mem_cons_of_mem _ hx))

/-- C12. No hidden mutation of the table: for every table, buffer, size and
input CRC, a call of `calcCRC` that returns leaves the array found at `table`
as it was, and with 256 entries and a size the buffer covers it does return;
after any number of such calls on other inputs the array is still the same,
so the checksum of an input `X` with it is the same after as before. -/
theorem calcCRC_table_unchanged (w : Nat) (table : List Nat) (mem : List Byte) (size : Int)
    (CRC : Nat) (calls : List (List Byte × Int × Nat)) (X : List Byte) (n : Int) (c : Nat) :
    (∀ r, calcCRC.run w mem size CRC table = some r →
      r.2 = table ∧ calcCRC w mem size CRC table = some r.1) ∧
    (table.length = CRC_TABLE_SIZE → ∀ k : Nat, k ≤ mem.length →
      ∃ v, calcCRC.run w mem (k : Int) CRC table = some (v, table)) ∧
    (∀ table1, calcCRC.runAll w calls table = some table1 →
      table1 = table ∧ calcCRC w X n c table1 = calcCRC w X n c table) ∧
    (table.length = CRC_TABLE_SIZE →
      (∀ call ∈ calls, ∃ k : Nat, call.2.1 = (k : Int) ∧ k ≤ call.1.length) →
      calcCRC.runAll w calls table = some table) := by
  refine ⟨?_, ?_, ?_, ?_⟩
  · intro r hr
    rw [calcCRC_run_eq] at hr
    cases hc : calcCRC w mem size CRC table with
    | none => rw [hc] at hr; cases hr
    | some v =>
      rw [hc] at hr
      cases hr
      exact ⟨rfl, rfl⟩
  · intro ht k hk
    obtain ⟨acc, hacc⟩ := accFold_isSome table ht (mem.take k) (bnot w CRC)
    rw [calcCRC_run_eq, calcCRC_eq w table mem k CRC hk, hacc]
    exact ⟨_, rfl⟩
  · intro table1 h1
    have ht := calcCRC_runAll_table w calls table table1 h1
    exact ⟨ht, by rw [ht]⟩
  · intro ht hcalls
    exact calcCRC_runAll_isSome w table ht calls hcalls

/-! ## The sizes that `eeGetFileCRC` passes to `calcCRC` -/

theorem fread_bounds (buf chunk : List Byte) (hbuf : buf.length = BUF_SIZE) :
    (fread buf BUF_SIZE chunk).2 ≤ BUF_SIZE ∧
    (fread buf BUF_SIZE chunk).1.length = BUF_SIZE ∧
    (fread buf BUF_SIZE chunk).2 = (chunk.take BUF_SIZE).length ∧
    (fread buf BUF_SIZE chunk).1.take (fread buf BUF_SIZE chunk).2 = chunk.take BUF_SIZE := by
  have hle : (chunk.take BUF_SIZE).length ≤ BUF_SIZE := by
    rw [List.length_take]; exact Nat.min_le_left _ _
  unfold fread
  simp only []
  refine ⟨hle, ?_, trivial, List.take_left' rfl⟩
  rw [List.length_append, List.length_drop, hbuf]
  omega

theorem toSignedLong_small (w x : Nat) (hw : 32 ≤ w) (hx : x ≤ 32768) :
    toSignedLong w x = (x : Int) := by
  have h31 : (2 : Nat) ^ 31 ≤ 2 ^ (w - 1) := Nat.pow_le_pow_right (by decide) (by omega)
  have h32 : (2 : Nat) ^ 31 ≤ 2 ^ w := Nat.pow_le_pow_right (by decide) (by omega)
  have hlt : x < 2 ^ w := by
    have : (32768 : Nat) < 2 ^ 31 := by norm_num
    omega
  have hlt1 : x < 2 ^ (w - 1) := by
    have : (32768 : Nat) < 2 ^ 31 := by norm_num
    omega
  unfold toSignedLong
  rw [Nat.mod_eq_of_lt hlt, if_pos hlt1]

/-- The result of the read loop is the fold of `calcCRC` over the recorded calls. -/
theorem eeGetFileCRC_loop_calls (w : Nat) (table : List Nat) (pending : List (List Byte))
    (buf : List Byte) (CRC : Nat) :
    eeGetFileCRC.loop w table pending buf CRC =
      (eeGetFileCRC.calls w table pending buf CRC).foldlM
        (fun crc call => calcCRC w call.2.1 (call.2.2 : Int) crc table) CRC := by
  induction pending generalizing buf CRC with
  | nil => rfl
  | cons chunk pending ih =>
    rw [eeGetFileCRC.loop, eeGetFileCRC.calls]
    by_cases hlen : (fread buf BUF_SIZE chunk).2 ≠ 0
    · rw [if_pos hlen, if_pos hlen, List.foldlM_cons]
      cases hc : calcCRC w (fread buf BUF_SIZE chunk).1 ((fread buf BUF_SIZE chunk).2 : Int)
          CRC table with
      | none => rfl
      | some c1 => exact ih _ c1
    · rw [if_neg hlen, if_neg hlen]
      rfl

theorem eeGetFileCRC_calls_bounds (w : Nat) (table : List Nat) (pending : List (List Byte))
    (buf : List Byte) (CRC : Nat) (hbuf : buf.length = BUF_SIZE) :
    ∀ call ∈ eeGetFileCRC.calls w table pending buf CRC,
      1 ≤ call.2.2 ∧ call.2.2 ≤ BUF_SIZE ∧ call.2.1.length = BUF_SIZE ∧
      call.2.2 = (call.1.take BUF_SIZE).length ∧
      call.2.1.take call.2.2 = call.1.take BUF_SIZE := by
  induction pending generalizing buf CRC with
  | nil =>
    intro call hcall
    rw [eeGetFileCRC.calls] at hcall
    exact absurd hcall (List.not_mem_nil _)
  | cons chunk pending ih =>
    intro call hcall
    have hb := fread_bounds buf chunk hbuf
    rw [eeGetFileCRC.calls] at hcall
    by_cases hlen : (fread buf BUF_SIZE chunk).2 ≠ 0
    · rw [if_pos hlen] at hcall
      rcases List.mem_cons.mp hcall with hhead | htail
      · subst hhead
        exact ⟨Nat.one_le_iff_ne_zero.mpr hlen, hb.1, hb.2.1, hb.2.2.1, hb.2.2.2⟩
      · cases hc : calcCRC w (fread buf BUF_SIZE chunk).1
            ((fread buf BUF_SIZE chunk).2 : Int) CRC table with
        | none =>
          rw [hc] at htail
          exact absurd htail (List.not_mem_nil _)
        | some c1 =>
          rw [hc] at htail
          exact ih _ c1 hb.2.1 call htail
    · rw [if_neg hlen] at hcall
      exact absurd hcall (List.not_mem_nil _)

/-- C14. The driver keeps to the length precondition of `calcCRC`: in every
execution of `eeGetFileCRC` on a file that opens, whatever the stream delivers,
the value returned is the fold of `calcCRC` over the recorded calls, and in
each call the size is the byte count of a read into the 32768-byte buffer: it
is at least 1 and at most 32768, the buffer passed holds 32768 bytes of which
the first `size` are the bytes just read, and the conversion of `size` to
`signed long` (of 32 bits or more) keeps its value, so it is not negative. -/
theorem eeGetFileCRC_sizes (w : Nat) (fr : Locals) (fopen : String → Option FILE)
    (fileName : String) (s : FILE) (hopen : fopen fileName = some s) :
    ∃ T, makeCRCtable fr.table 0xEDB88320 = some T ∧
      eeGetFileCRC w fr fopen fileName =
        (eeGetFileCRC.calls w T s.pending fr.buf 0).foldlM
          (fun crc call => calcCRC w call.2.1 (call.2.2 : Int) crc T) 0 ∧
      ∀ call ∈ eeGetFileCRC.calls w T s.pending fr.buf 0,
        1 ≤ call.2.2 ∧ call.2.2 ≤ 32768 ∧ call.2.1.length = 32768 ∧
        call.2.2 ≤ call.2.1.length ∧
        call.2.2 = (call.1.take 32768).length ∧
        call.2.1.take call.2.2 = call.1.take 32768 ∧
        (∀ wl, 32 ≤ wl → toSignedLong wl call.2.2 = (call.2.2 : Int) ∧
          0 < toSignedLong wl call.2.2) := by
  have hT := makeCRCtable_eq fr.table POLY fr.table_size
  refine ⟨specTable POLY, hT, ?_, ?_⟩
  · unfold eeGetFileCRC
    rw [hopen]
    simp only []
    rw [hT]
    exact eeGetFileCRC_loop_calls w _ _ _ _
  · intro call hcall
    have hb := eeGetFileCRC_calls_bounds w (specTable POLY) s.pending fr.buf 0 fr.buf_size
      call hcall
    refine ⟨hb.1, hb.2.1, hb.2.2.1, ?_, hb.2.2.2.1, hb.2.2.2.2, ?_⟩
    · rw [hb.2.2.1]; exact hb.2.1
    · intro wl hwl
      have hs := toSignedLong_small wl call.2.2 hwl hb.2.1
      have h1 := hb.1
      refine ⟨hs, ?_⟩
      rw [hs]
      omega

theorem eeGetFileCRC_sizes_witness :
    testFopen "/root/split.dat" =
        some ⟨[[0x31, 0x32, 0x33, 0x34], [0x35, 0x36, 0x37, 0x38, 0x39], []]⟩ ∧
    ∃ T, makeCRCtable zeroLocals.table 0xEDB88320 = some T ∧
      eeGetFileCRC 32 zeroLocals testFopen "/root/split.dat" =
        (eeGetFileCRC.calls 32 T
          (FILE.mk [[0x31, 0x32, 0x33, 0x34], [0x35, 0x36, 0x37, 0x38, 0x39], []]).pending
            zeroLocals.buf 0).foldlM
          (fun crc call => calcCRC 32 call.2.1 (call.2.2 : Int) crc T) 0 ∧
      ∀ call ∈ eeGetFileCRC.calls 32 T
          (FILE.mk [[0x31, 0x32, 0x33, 0x34], [0x35, 0x36, 0x37, 0x38, 0x39], []]).pending
            zeroLocals.buf 0,
        1 ≤ call.2.2 ∧ call.2.2 ≤ 32768 ∧ call.2.1.length = 32768 ∧
        call.2.2 ≤ call.2.1.length ∧
        call.2.2 = (call.1.take 32768).length ∧
        call.2.1.take call.2.2 = call.1.take 32768 ∧
        (∀ wl, 32 ≤ wl → toSignedLong wl call.2.2 = (call.2.2 : Int) ∧
          0 < toSignedLong wl call.2.2) :=
  ⟨by decide,
    eeGetFileCRC_sizes 32 zeroLocals testFopen "/root/split.dat"
      ⟨[[0x31, 0x32, 0x33, 0x34], [0x35, 0x36, 0x37, 0x38, 0x39], []]⟩ (by decide)⟩

/-! ## Bounds on the values -/

theorem bitStep_lt (p k m : Nat) (hp : p < 2 ^ m) (hk : k < 2 ^ m) : bitStep p k < 2 ^ m := by
  have hhalf : k / 2 < 2 ^ m := lt_of_le_of_lt (Nat.div_le_self k 2) hk
  unfold bitStep
  by_cases hodd : k % 2 = 1
  · rw [if_pos hodd]
    exact Nat.xor_lt_two_pow hhalf hp
  · rw [if_neg hodd]
    exact hhalf

theorem bitIter_lt (p n k m : Nat) (hp : p < 2 ^ m) (hk : k < 2 ^ m) :
    (bitStep p)^[n] k < 2 ^ m := by
  induction n generalizing k with
  | zero => exact hk
  | succ n ih =>
    rw [Function.iterate_succ_apply]
    exact ih _ (bitStep_lt p k m hp hk)

theorem specTable_lt (p : Nat) (hp : p < 2 ^ 32) : ∀ t ∈ specTable p, t < 2 ^ 32 := by
  intro t ht
  unfold specTable at ht
  obtain ⟨i, hi, rfl⟩ := List.mem_map.mp ht
  have hi256 : i < 256 := List.mem_range.mp hi
  exact bitIter_lt p 8 i 32 hp (lt_trans hi256 (by norm_num))

theorem bnot_lt (w m x : Nat) (hw : w ≤ m) (hx : x < 2 ^ m) : bnot w x < 2 ^ m := by
  unfold bnot ULONG_MAX
  apply Nat.xor_lt_two_pow hx
  have h1 : 2 ^ w ≤ 2 ^ m := Nat.pow_le_pow_right (by decide) hw
  have h2 : 0 < 2 ^ w := Nat.two_pow_pos w
  omega

theorem accNext_lt (table : List Nat) (m : Nat) (hentries : ∀ t ∈ table, t < 2 ^ m)
    (acc : Nat) (hacc : acc < 2 ^ m) (b : Byte) : accNext table acc b < 2 ^ m := by
  unfold accNext
  apply Nat.xor_lt_two_pow
  · rw [List.getD_eq_getElem?_getD]
    cases hget : table[(acc ^^^ b.val) &&& 0xFF]? with
    | none => exact Nat.two_pow_pos m
    | some t => exact hentries t (List.getElem?_mem hget)
  · rw [Nat.shiftRight_eq_div_pow]
    exact lt_of_le_of_lt (Nat.div_le_self _ _) hacc

theorem foldl_accNext_lt (table : List Nat) (m : Nat) (hentries : ∀ t ∈ table, t < 2 ^ m)
    (data : List Byte) (acc : Nat) (hacc : acc < 2 ^ m) :
    data.foldl (accNext table) acc < 2 ^ m := by
  induction data generalizing acc with
  | nil => exact hacc
  | cons b data ih =>
    rw [List.foldl_cons]
    exact ih _ (accNext_lt table m hentries acc hacc b)

/-- When `unsigned long` has at most `m` bits, `calcCRC` keeps values below
`2 ^ m`. -/
theorem calcCRC_lt (w m : Nat) (hw : w ≤ m) (table : List Nat)
    (ht : table.length = CRC_TABLE_SIZE) (hentries : ∀ t ∈ table, t < 2 ^ m)
    (mem : List Byte) (n : Nat) (hn : n ≤ mem.length) (c : Nat) (hc : c < 2 ^ m) :
    ∃ r, calcCRC w mem (n : Int) c table = some r ∧ r < 2 ^ m := by
  rw [calcCRC_eq w table mem n c hn, accFold_eq_foldl table ht]
  exact ⟨_, rfl, bnot_lt w m _ hw
    (foldl_accNext_lt table m hentries _ _ (bnot_lt w m c hw hc))⟩

/-- C15, amended. Values stay 32-bit: for every polynomial `p < 2^32` every
entry of the table `makeCRCtable` writes is below `2^32` (there is no width in
`makeCRCtable`); and with `unsigned long` 32 bits wide, for every input CRC
`c < 2^32`, every 256-entry table with entries below `2^32` and every byte
sequence of which `n` bytes are processed, `calcCRC` returns a value below
`2^32`, the two complements included. -/
theorem values_stay_32bit (p : Nat) (hp : p < 2 ^ 32) (table0 : List Nat)
    (h0 : table0.length = CRC_TABLE_SIZE) (c : Nat) (hc : c < 2 ^ 32) (table : List Nat)
    (ht : table.length = CRC_TABLE_SIZE) (hentries : ∀ t ∈ table, t < 2 ^ 32)
    (mem : List Byte) (n : Nat) (hn : n ≤ mem.length) :
    (∃ T, makeCRCtable table0 p = some T ∧ T.length = CRC_TABLE_SIZE ∧ ∀ t ∈ T, t < 2 ^ 32) ∧
    (∃ r, calcCRC 32 mem (n : Int) c table = some r ∧ r < 2 ^ 32) :=
  ⟨⟨specTable p, makeCRCtable_eq table0 p h0, specTable_length p, specTable_lt p hp⟩,
    calcCRC_lt 32 32 (Nat.le_refl 32) table ht hentries mem n hn c hc⟩

theorem values_stay_32bit_witness :
    (0xEDB88320 : Nat) < 2 ^ 32 ∧ (List.replicate 256 0).length = CRC_TABLE_SIZE ∧
    (0 : Nat) < 2 ^ 32 ∧ (specTable 0xEDB88320).length = CRC_TABLE_SIZE ∧
    (∀ t ∈ specTable 0xEDB88320, t < 2 ^ 32) ∧ 9 ≤ check9.length ∧
    (∃ T, makeCRCtable (List.replicate 256 0) 0xEDB88320 = some T ∧
      T.length = CRC_TABLE_SIZE ∧ ∀ t ∈ T, t < 2 ^ 32) ∧
    (∃ r, calcCRC 32 check9 ((9 : Nat) : Int) 0 (specTable 0xEDB88320) = some r ∧ r < 2 ^ 32) :=
  ⟨by norm_num, List.length_replicate 256 0, by norm_num, specTable_length _,
    specTable_lt _ (by norm_num), by decide,
    values_stay_32bit 0xEDB88320 (by norm_num) (List.replicate 256 0)
      (List.length_replicate 256 0) 0 (by norm_num) (specTable 0xEDB88320)
      (specTable_length _) (specTable_lt _ (by norm_num)) check9 9 (by decide)⟩

/-! ## Properties of `fnCompareFileCrc` -/

theorem crcPath_fit (name : String) (h : name.utf8ByteSize ≤ 117) :
    crcPath name = some (crcPathText name) := by
  unfold crcPath CRC_TMP_SIZE
  rw [if_pos (by omega)]

theorem crcPath_overflow (name : String) (h : 117 < name.utf8ByteSize) :
    crcPath name = none := by
  unfold crcPath CRC_TMP_SIZE
  rw [if_neg (by omega)]

/-- The block shared by the three branches of `fnCompareFileCrc`, for the file
name `name`. -/
theorem plain_block (w : Nat) (fr : Locals) (fopen : String → Option FILE) (total : Nat)
    (name : String) :
    (if total ≠ 0 then
      match crcPath name with
      | none => none
      | some crc_tmp =>
        match eeGetFileCRC w fr fopen crc_tmp with
        | none => none
        | some file_crc =>
          if file_crc ≠ 0 then
            if file_crc ≠ total then some 0 else some 1
          else some 1
    else (some 1 : Option Nat)) =
    (if total ≠ 0 then
      match crcPath name with
      | none => none
      | some crc_tmp =>
        match eeGetFileCRC w fr fopen crc_tmp with
        | none => none
        | some file_crc => some (if file_crc ≠ 0 ∧ file_crc ≠ total then 0 else 1)
    else some 1) := by
  by_cases ht : total ≠ 0
  · rw [if_pos ht, if_pos ht]
    cases crcPath name with
    | none => rfl
    | some p =>
      simp only []
      cases eeGetFileCRC w fr fopen p with
      | none => rfl
      | some crc =>
        simp only []
        by_cases hc : crc ≠ 0 <;> by_cases he : crc ≠ total <;> simp [hc, he]
  · rw [if_neg ht, if_neg ht]

theorem fnCompareFileCrc_shape (w : Nat) (P : PackageT) (fr : Locals)
    (fopen : String → Option FILE) (db : ModemFotaDb) :
    fnCompareFileCrc w P fr fopen db =
      match selectedName P db with
      | none => some 1
      | some name =>
        if db.total_crc ≠ 0 then
          match crcPath name with
          | none => none
          | some crc_tmp =>
            match eeGetFileCRC w fr fopen crc_tmp with
            | none => none
            | some file_crc => some (if file_crc ≠ 0 ∧ file_crc ≠ db.total_crc then 0 else 1)
        else some 1 := by
  unfold fnCompareFileCrc selectedName
  by_cases h1 : db.dev_code = P.PACKAGE_T_CP970
  · rw [if_pos h1, if_pos h1]
    exact plain_block w fr fopen db.total_crc db.main_filename
  · by_cases h2 : db.dev_code = P.PACKAGE_T_INF267RS
    · rw [if_neg h1, if_neg h1, if_pos h2, if_pos h2]
      exact plain_block w fr fopen db.total_crc db.wire_filename
    · by_cases h3 : db.dev_code = P.PACKAGE_T_INF260Z
      · rw [if_neg h1, if_neg h1, if_neg h2, if_neg h2, if_pos h3, if_pos h3]
        exact plain_block w fr fopen db.total_crc db.wireless_filename
      · rw [if_neg h1, if_neg h1, if_neg h2, if_neg h2, if_neg h3, if_neg h3]

/-- What `fnCompareFileCrc` returns for a handled device code whose selected
file name fits the path buffer, in terms of the value `crc` that
`eeGetFileCRC` returns for the selected file. -/
theorem fnCompareFileCrc_selected (w : Nat) (P : PackageT) (fr : Locals)
    (fopen : String → Option FILE) (db : ModemFotaDb) (name : String) (crc : Nat)
    (hsel : selectedName P db = some name) (hfit : name.utf8ByteSize ≤ 117)
    (hcrc : eeGetFileCRC w fr fopen (crcPathText name) = some crc) :
    fnCompareFileCrc w P fr fopen db =
      some (if db.total_crc ≠ 0 ∧ crc ≠ 0 ∧ crc ≠ db.total_crc then 0 else 1) := by
  rw [fnCompareFileCrc_shape, hsel]
  simp only []
  by_cases ht : db.total_crc ≠ 0
  · rw [if_pos ht, crcPath_fit name hfit]
    simp only []
    rw [hcrc]
    simp only []
    by_cases hc : crc ≠ 0 ∧ crc ≠ db.total_crc
    · rw [if_pos hc, if_pos ⟨ht, hc⟩]
    · rw [if_neg hc, if_neg (fun h => hc h.2)]
  · rw [if_neg ht, if_neg (fun h => ht h.1)]

/-- C5, as stated, fails: the stored reference is 5, the selected file opens,
holds no bytes and has the checksum 0, the two differ, and `fnCompareFileCrc`
still returns 1 (success). -/
theorem compare_mismatch_reported_as_success :
    selectedName testCodes ⟨1, 5, "empty", "nine", "none"⟩ = some "empty" ∧
    crcPath "empty" = some "/root/empty.dat" ∧
    eeGetFileCRC 32 zeroLocals testFopen "/root/empty.dat" = some 0 ∧
    (5 : Nat) ≠ 0 ∧
    fnCompareFileCrc 32 testCodes zeroLocals testFopen ⟨1, 5, "empty", "nine", "none"⟩
      = some 1 := by
  set_option maxRecDepth 100000 in decide

/-- C5, amended. For every device record whose device code is one of the three
handled ones and whose selected file name fits the path buffer `crc_tmp` (at
most 117 bytes), with `crc` the value `eeGetFileCRC` returns for the selected
file: if the stored `total_crc` is not 0, `crc` is not 0 and the two differ,
`fnCompareFileCrc` returns 0 (failure); if the two are equal it returns 1
(success). -/
theorem fnCompareFileCrc_compare (w : Nat) (P : PackageT) (fr : Locals)
    (fopen : String → Option FILE) (db : ModemFotaDb) (name : String) (crc : Nat)
    (hsel : selectedName P db = some name) (hfit : name.utf8ByteSize ≤ 117)
    (hcrc : eeGetFileCRC w fr fopen (crcPathText name) = some crc) :
    (db.total_crc ≠ 0 → crc ≠ 0 → crc ≠ db.total_crc →
      fnCompareFileCrc w P fr fopen db = some 0) ∧
    (crc = db.total_crc → fnCompareFileCrc w P fr fopen db = some 1) := by
  rw [fnCompareFileCrc_selected w P fr fopen db name crc hsel hfit hcrc]
  constructor
  · intro ht hc he
    rw [if_pos ⟨ht, hc, he⟩]
  · intro he
    rw [if_neg (fun h => h.2.2 he)]

theorem fnCompareFileCrc_compare_witness :
    selectedName testCodes testDb = some "nine" ∧
    ("nine" : String).utf8ByteSize ≤ 117 ∧
    eeGetFileCRC 32 zeroLocals testFopen (crcPathText "nine") = some 0xCBF43926 ∧
    (testDb.total_crc ≠ 0 → (0xCBF43926 : Nat) ≠ 0 → (0xCBF43926 : Nat) ≠ testDb.total_crc →
      fnCompareFileCrc 32 testCodes zeroLocals testFopen testDb = some 0) ∧
    ((0xCBF43926 : Nat) = testDb.total_crc →
      fnCompareFileCrc 32 testCodes zeroLocals testFopen testDb = some 1) :=
  have hr : eeGetFileCRC 32 zeroLocals testFopen (crcPathText "nine") = some 0xCBF43926 := by
    set_option maxRecDepth 100000 in decide
  ⟨by decide, by decide, hr,
    fnCompareFileCrc_compare 32 testCodes zeroLocals testFopen testDb
      "nine" 0xCBF43926 (by decide) (by decide) hr⟩

/-- C6, as stated, fails: the device code is a handled one, the stored
reference is 5, the selected file cannot be opened, and `fnCompareFileCrc`
returns 1 (success). -/
theorem open_failure_reported_as_success :
    selectedName testCodes ⟨3, 5, "empty", "nine", "none"⟩ = some "none" ∧
    crcPath "none" = some "/root/none.dat" ∧
    testFopen "/root/none.dat" = none ∧
    (5 : Nat) ≠ 0 ∧
    fnCompareFileCrc 32 testCodes zeroLocals testFopen ⟨3, 5, "empty", "nine", "none"⟩
      = some 1 := by
  set_option maxRecDepth 100000 in decide

/-- C6, amended. For every device record whose device code is one of the three
handled ones, whose selected file name fits the path buffer `crc_tmp` (at most
117 bytes) and whose stored reference checksum is not 0, if the selected file
cannot be opened then `fnCompareFileCrc` returns 1 (success): `eeGetFileCRC`
returns 0 and the comparison is skipped. -/
theorem fnCompareFileCrc_open_failure (w : Nat) (P : PackageT) (fr : Locals)
    (fopen : String → Option FILE) (db : ModemFotaDb) (name : String)
    (hsel : selectedName P db = some name) (hfit : name.utf8ByteSize ≤ 117)
    (_htotal : db.total_crc ≠ 0)
    (hmiss : fopen (crcPathText name) = none) :
    crcPath name = some (crcPathText name) ∧
    eeGetFileCRC w fr fopen (crcPathText name) = some 0 ∧
    fnCompareFileCrc w P fr fopen db = some 1 := by
  have h0 := eeGetFileCRC_missing w fr fopen (crcPathText name) hmiss
  refine ⟨crcPath_fit name hfit, h0, ?_⟩
  rw [fnCompareFileCrc_selected w P fr fopen db name 0 hsel hfit h0]
  simp

theorem fnCompareFileCrc_open_failure_witness :
    selectedName testCodes ⟨1, 9, "none", "nine", "empty"⟩ = some "none" ∧
    ("none" : String).utf8ByteSize ≤ 117 ∧
    (9 : Nat) ≠ 0 ∧
    testFopen (crcPathText "none") = none ∧
    crcPath "none" = some (crcPathText "none") ∧
    eeGetFileCRC 32 zeroLocals testFopen (crcPathText "none") = some 0 ∧
    fnCompareFileCrc 32 testCodes zeroLocals testFopen ⟨1, 9, "none", "nine", "empty"⟩
      = some 1 :=
  ⟨by decide, by decide, by decide, by decide,
    fnCompareFileCrc_open_failure 32 testCodes zeroLocals testFopen
      ⟨1, 9, "none", "nine", "empty"⟩ "none" (by decide) (by decide) (by decide) (by decide)⟩

/-- A file name of 118 bytes does not fit: the `sprintf` overruns `crc_tmp`
and the function has no defined result. -/
theorem fnCompareFileCrc_overflow (w : Nat) (P : PackageT) (fr : Locals)
    (fopen : String → Option FILE) (db : ModemFotaDb) (name : String)
    (hsel : selectedName P db = some name) (hlong : 117 < name.utf8ByteSize)
    (htotal : db.total_crc ≠ 0) :
    fnCompareFileCrc w P fr fopen db = none := by
  rw [fnCompareFileCrc_shape, hsel]
  simp only []
  rw [if_pos htotal, crcPath_overflow name hlong]

/-- C1, as stated without a width, fails: with a 64-bit `unsigned long` the
call of `calcCRC` over `123456789` with input CRC 0 and the table built by
`makeCRCtable` for `0xEDB88320` returns `0xFFFFFFFFF22931C4`, not `0xCBF43926`. -/
theorem known_answer_differs_at_64 :
    ∃ T, makeCRCtable (List.replicate 256 0) 0xEDB88320 = some T ∧ T.length = 256 ∧
      calcCRC 64 check9 9 0 T = some 0xFFFFFFFFF22931C4 ∧
      calcCRC 64 check9 9 0 T ≠ some 0xCBF43926 :=
  ⟨specTable 0xEDB88320, makeCRCtable_eq _ _ (List.length_replicate 256 0),
    specTable_length _, check9_value_64, by
      have h : calcCRC 64 check9 9 0 (specTable 0xEDB88320) = some 0xFFFFFFFFF22931C4 :=
        check9_value_64
      rw [h]
      decide⟩

/-- C3, as stated without a width, fails in its last part: with a 64-bit
`unsigned long` the file that holds exactly `123456789` yields
`0xFFFFFFFFF22931C4`, not `0xCBF43926`. -/
theorem file_nine_differs_at_64 :
    testFopen "/root/nine.dat" = some ⟨[check9]⟩ ∧
    eeGetFileCRC 64 zeroLocals testFopen "/root/nine.dat" = some 0xFFFFFFFFF22931C4 ∧
    eeGetFileCRC 64 zeroLocals testFopen "/root/nine.dat" ≠ some 0xCBF43926 := by
  set_option maxRecDepth 100000 in decide

/-- C13, as stated without a width, fails in its last part: with a 64-bit
`unsigned long`, input CRC 0 and the table for `0xEDB88320`, `calcCRC` over
`123456789` returns `0xFFFFFFFFF22931C4`, while the bit-by-bit CRC-32 of these
bytes is `0xCBF43926`. -/
theorem not_crc32_at_64 :
    ∃ T, makeCRCtable (List.replicate 256 0) 0xEDB88320 = some T ∧
      crc32Bitwise check9 = 0xCBF43926 ∧
      calcCRC 64 check9 (check9.length : Int) 0 T = some 0xFFFFFFFFF22931C4 ∧
      calcCRC 64 check9 (check9.length : Int) 0 T ≠ some (crc32Bitwise check9) :=
  have h : calcCRC 64 check9 (check9.length : Int) 0 (specTable 0xEDB88320)
      = some 0xFFFFFFFFF22931C4 := check9_value_64
  ⟨specTable 0xEDB88320, makeCRCtable_eq _ _ (List.length_replicate 256 0),
    crc32Bitwise_check9, h, by rw [h, crc32Bitwise_check9]; decide⟩

/-- C15, as stated without a width, fails in its second part: with a 64-bit
`unsigned long`, the input CRC 0, the table for `0xEDB88320` (256 entries, all
below `2^32`) and the single byte `0x31`, `calcCRC` returns
`0xFF0000007CDCEFB7`, which is not below `2^32`. -/
theorem value_exceeds_32bit_at_64 :
    (0 : Nat) < 2 ^ 32 ∧ (specTable 0xEDB88320).length = CRC_TABLE_SIZE ∧
    (∀ t ∈ specTable 0xEDB88320, t < 2 ^ 32) ∧
    calcCRC 64 [0x31] ((1 : Nat) : Int) 0 (specTable 0xEDB88320) = some 0xFF0000007CDCEFB7 ∧
    ¬ ((0xFF0000007CDCEFB7 : Nat) < 2 ^ 32) :=
  ⟨by norm_num, specTable_length _, specTable_lt _ (by norm_num),
    by set_option maxRecDepth 100000 in decide, by norm_num⟩

end CrcC
